import Mathlib

/-!
Verification development for the carl-ff ClientAuthRememberList codec.

The Python source (src/carl_ff/carl_ff.py) reads and writes Firefox's
ClientAuthRememberList.bin.  Bytes are modelled as `Nat` values (< 256 where
produced), byte strings as `List Nat`, Python `str` values as lists of code
points, fallible code as `Option`/`Except`.
-/

set_option maxRecDepth 40000

namespace CarlFF

/-- ASCII bytes of a string literal (used for the literal byte strings in the
source such as `b',,^partitionKey=%28'`). -/
def strB (s : String) : List Nat := s.toList.map Char.toNat

/-- Big-endian 16-bit read at an index, as `struct.unpack_from('>H', l, i)`. -/
def readBE16 (l : List Nat) (i : Nat) : Nat := l.getD i 0 * 256 + l.getD (i + 1) 0

/-- Big-endian byte representation of `n` on `k` bytes, as `int.to_bytes(k)`. -/
def beBytes : Nat → Nat → List Nat
  | 0, _ => []
  | k + 1, n => beBytes k (n / 256) ++ [n % 256]

/-- `struct.pack('>H', n)` for `n < 65536`. -/
def be16 (n : Nat) : List Nat := beBytes 2 n

/-- `struct.pack('>I', n)` for `n < 2^32`. -/
def be32 (n : Nat) : List Nat := beBytes 4 n

/-- Big-endian integer of a byte string, as `int.from_bytes(l, 'big')`. -/
def beNat (l : List Nat) : Nat := l.foldl (fun a b => a * 256 + b) 0

/-- Strip trailing zero bytes, as `bytes.rstrip(b'\x00')`. -/
def rstrip0 (l : List Nat) : List Nat := (l.reverse.dropWhile (fun b => b = 0)).reverse

/-- Zero-pad at the right up to length `n` (the `while len(buf) < n: buf += b'\x00'`
loops in the source); a longer buffer is returned unchanged. -/
def padTo (n : Nat) (l : List Nat) : List Nat := l ++ List.replicate (n - l.length) 0

/-- Python `str.split(sep)` for a one-byte separator (splits on every occurrence;
an empty input gives one empty part). -/
def splitByte (b : Nat) : List Nat → List (List Nat)
  | [] => [[]]
  | c :: t =>
    if c = b then [] :: splitByte b t
    else
      match splitByte b t with
      | h :: r => (c :: h) :: r
      | [] => [[c]]

/-- Python `'.'.join(parts)`. -/
def joinDot : List (List Nat) → List Nat
  | [] => []
  | [p] => p
  | p :: ps => p ++ 46 :: joinDot ps

/-- `'.'.join(host.split('.')[-2:])` — tld derivation from the entry constructor. -/
def tldOf (host : List Nat) : List Nat :=
  joinDot ((splitByte 46 host).drop ((splitByte 46 host).length - 2))

/-- `str.encode('ascii')`: identity on code-point lists that are all ASCII,
error otherwise. -/
def encodeAscii (s : List Nat) : Option (List Nat) :=
  if s.all (fun c => c < 128) then some s else none

/-- Decimal digit characters of `m`, fuel-driven so that it is structural
(`fuel > m` suffices for correctness); models Python `str(int)`. -/
def natDecGo : Nat → Nat → List Nat
  | 0, _ => []
  | fuel + 1, m => if m < 10 then [48 + m] else natDecGo fuel (m / 10) ++ [48 + m % 10]

/-- ASCII decimal representation of a natural number, as `str(n)`. -/
def natDec (n : Nat) : List Nat := natDecGo (n + 1) n

/-- A decoded port field.  The source is untyped here: the constructor is
called with an `int` port by users, while the decoder passes the raw bytes
captured by the regex group. -/
inductive PortV where
  | int (n : Nat)
  | bytes (b : List Nat)
deriving DecidableEq, Repr

/-- `str(self.port).encode('ascii')` content.  For the `bytes` case the Python
`str()` is the bytes repr `b'...'`; the payloads produced by the decoder
(`%2C` followed by digits, optionally preceded by `:`) contain no quotes,
backslashes or non-printable bytes, on which this is exact. -/
def portStr : PortV → List Nat
  | .int n => natDec n
  | .bytes b => 98 :: 39 :: b ++ [39]

/-- Stripped-down x509 certificate (serial number + DER issuer bytes). -/
structure ClientCert where
  serial_number : Nat
  issuer : List Nat
deriving DecidableEq, Repr

/-- `(serial_number).to_bytes(20).lstrip(b'\x00')`; `to_bytes(20)` raises
`OverflowError` when the value needs more than 20 bytes. -/
def ClientCert.get_serial_bytes (c : ClientCert) : Option (List Nat) :=
  if c.serial_number < 256 ^ 20 then
    some ((beBytes 20 c.serial_number).dropWhile (fun b => b = 0))
  else none

/-- `get_serial_len`: byte length of the stripped serial representation. -/
def ClientCert.get_serial_len (c : ClientCert) : Option Nat :=
  c.get_serial_bytes.map List.length

/-- `get_issuer_len`. -/
def ClientCert.get_issuer_len (c : ClientCert) : Nat := c.issuer.length

/-! ## base64 (the parts of Python's `base64` used by the source) -/

/-- Value-to-character table of the standard base64 alphabet. -/
def b64EncChar (v : Nat) : Nat :=
  if v < 26 then 65 + v
  else if v < 52 then 97 + (v - 26)
  else if v < 62 then 48 + (v - 52)
  else if v = 62 then 43
  else 47

/-- Character-to-value table of the standard base64 alphabet. -/
def b64DecChar (c : Nat) : Option Nat :=
  if 65 ≤ c ∧ c ≤ 90 then some (c - 65)
  else if 97 ≤ c ∧ c ≤ 122 then some (c - 97 + 26)
  else if 48 ≤ c ∧ c ≤ 57 then some (c - 48 + 52)
  else if c = 43 then some 62
  else if c = 47 then some 63
  else none

/-- `base64.b64encode`. -/
def b64encode : List Nat → List Nat
  | a :: b :: c :: t =>
    b64EncChar (a / 4) :: b64EncChar (a % 4 * 16 + b / 16) ::
      b64EncChar (b % 16 * 4 + c / 64) :: b64EncChar (c % 64) :: b64encode t
  | [a, b] => [b64EncChar (a / 4), b64EncChar (a % 4 * 16 + b / 16), b64EncChar (b % 16 * 4), 61]
  | [a] => [b64EncChar (a / 4), b64EncChar (a % 4 * 16), 61, 61]
  | [] => []

/-- `base64.b64decode` on alphabet-only input: the length must be a multiple
of four, `=` may appear only as final padding, and unused trailing bits are
ignored (as CPython does). -/
def b64decode : List Nat → Option (List Nat)
  | [] => some []
  | c1 :: c2 :: c3 :: c4 :: t =>
    match b64DecChar c1, b64DecChar c2 with
    | some v1, some v2 =>
      if c3 = 61 then
        if c4 = 61 ∧ t = [] then some [v1 * 4 + v2 / 16] else none
      else
        match b64DecChar c3 with
        | some v3 =>
          if c4 = 61 then
            if t = [] then some [v1 * 4 + v2 / 16, v2 % 16 * 16 + v3 / 4] else none
          else
            match b64DecChar c4, b64decode t with
            | some v4, some rest =>
              some ((v1 * 4 + v2 / 16) :: (v2 % 16 * 16 + v3 / 4) :: (v3 % 4 * 64 + v4) :: rest)
            | _, _ => none
        | none => none
    | _, _ => none
  | _ => none

/-! ## UTF-8 (strict decoding, as Python `bytes.decode()`) -/

/-- One strict UTF-8 step: decode the code point led by `b` (with continuation
bytes taken from `t`) and return it with the unconsumed remainder; rejects
stray continuation bytes, overlong forms, surrogates and values above
U+10FFFF like CPython's strict codec. -/
def utf8Step (b : Nat) (t : List Nat) : Option (Nat × List Nat) :=
  if b < 128 then some (b, t)
  else if 194 ≤ b ∧ b ≤ 223 then
    match t with
    | c1 :: t1 =>
      if 128 ≤ c1 ∧ c1 ≤ 191 then some ((b - 192) * 64 + (c1 - 128), t1) else none
    | [] => none
  else if 224 ≤ b ∧ b ≤ 239 then
    match t with
    | c1 :: c2 :: t2 =>
      if (if b = 224 then 160 else 128) ≤ c1 ∧ c1 ≤ (if b = 237 then 159 else 191) ∧
          128 ≤ c2 ∧ c2 ≤ 191 then
        some ((b - 224) * 4096 + (c1 - 128) * 64 + (c2 - 128), t2)
      else none
    | _ => none
  else if 240 ≤ b ∧ b ≤ 244 then
    match t with
    | c1 :: c2 :: c3 :: t3 =>
      if (if b = 240 then 144 else 128) ≤ c1 ∧ c1 ≤ (if b = 244 then 143 else 191) ∧
          128 ≤ c2 ∧ c2 ≤ 191 ∧ 128 ≤ c3 ∧ c3 ≤ 191 then
        some ((b - 240) * 262144 + (c1 - 128) * 4096 + (c2 - 128) * 64 + (c3 - 128), t3)
      else none
    | _ => none
  else none

/-- Fuel-driven strict UTF-8 decoding loop (each step consumes at least the
lead byte, so a fuel of the input length is always enough). -/
def utf8Go : Nat → List Nat → Option (List Nat)
  | _, [] => some []
  | 0, _ :: _ => none
  | fuel + 1, b :: t =>
    match utf8Step b t with
    | some (cp, rest) => (utf8Go fuel rest).map (cp :: ·)
    | none => none

/-- Strict UTF-8 decoding of a byte string into code points, as Python
`bytes.decode()`. -/
def utf8Decode (l : List Nat) : Option (List Nat) := utf8Go l.length l

/-! ## The partition-key pattern

The decoder applies `re.search` with the bytes pattern
`%28(\w+)%2C([a-zA-Z0-9.-]+)(:?%2C(\d+))?%29`.  Every character class of the
pattern excludes `%` and `:`, and every literal after a class starts with `%`,
so a maximal-munch parse with the regex's alternative ordering (group present
preferred, `:` preferred inside `:?`) computes exactly the leftmost regex
match; `reSearch` scans for it. -/

/-- Word characters, byte-pattern `\w`. -/
def wordChar (c : Nat) : Bool :=
  decide ((65 ≤ c ∧ c ≤ 90) ∨ (97 ≤ c ∧ c ≤ 122) ∨ (48 ≤ c ∧ c ≤ 57) ∨ c = 95)

/-- The class `[a-zA-Z0-9.-]`. -/
def domChar (c : Nat) : Bool :=
  decide ((65 ≤ c ∧ c ≤ 90) ∨ (97 ≤ c ∧ c ≤ 122) ∨ (48 ≤ c ∧ c ≤ 57) ∨ c = 46 ∨ c = 45)

/-- Digits, byte-pattern `\d`. -/
def digitChar (c : Nat) : Bool := decide (48 ≤ c ∧ c ≤ 57)

/-- Consume an exact literal byte sequence, returning the remainder. -/
def stripLit : List Nat → List Nat → Option (List Nat)
  | [], s => some s
  | l :: lt, c :: st => if c = l then stripLit lt st else none
  | _ :: _, [] => none

/-- Match `%2C(\d+)` followed by the closing `%29`; returns the text of the
port group (without a leading `:`) and the remainder after `%29`. -/
def groupBody (s : List Nat) : Option (List Nat × List Nat) :=
  match stripLit (strB "%2C") s with
  | none => none
  | some t =>
    let ds := t.takeWhile digitChar
    let r := t.dropWhile digitChar
    if ds = [] then none
    else (stripLit (strB "%29") r).map (fun r2 => (strB "%2C" ++ ds, r2))

/-- The optional group `(:?%2C(\d+))?` in regex backtracking order: with the
`:` consumed first when present, then without it. -/
def tryGroup (s : List Nat) : Option (List Nat × List Nat) :=
  match s with
  | c :: t =>
    if c = 58 then
      match groupBody t with
      | some gr => some (58 :: gr.1, gr.2)
      | none => groupBody s
    else groupBody s
  | [] => groupBody s

/-- `(:?%2C(\d+))?%29`: group-present alternatives first, else the bare `%29`. -/
def parseTail (s : List Nat) : Option (Option (List Nat) × List Nat) :=
  match tryGroup s with
  | some (g, r) => some (some g, r)
  | none => (stripLit (strB "%29") s).map (fun r => (none, r))

/-- Attempt the whole pattern at the head of `s`; on success returns the
captured scheme, domain and optional port-group text. -/
def matchAt (s : List Nat) : Option (List Nat × List Nat × Option (List Nat)) :=
  match stripLit (strB "%28") s with
  | none => none
  | some s1 =>
    let sch := s1.takeWhile wordChar
    let s2 := s1.dropWhile wordChar
    if sch = [] then none
    else
      match stripLit (strB "%2C") s2 with
      | none => none
      | some s3 =>
        let dom := s3.takeWhile domChar
        let s4 := s3.dropWhile domChar
        if dom = [] then none
        else
          match parseTail s4 with
          | none => none
          | some (p, _) => some (sch, dom, p)

/-- `regex.search`: leftmost position where the pattern matches. -/
def reSearch : List Nat → Option (List Nat × List Nat × Option (List Nat))
  | [] => none
  | c :: t =>
    match matchAt (c :: t) with
    | some r => some r
    | none => reSearch t

/-- Python `data.split(b',,', 1)` when it yields two parts: the text before
the first `,,` and the remainder; `none` when the separator is absent (the
source's tuple unpacking then raises). -/
def pySplit2 : List Nat → Option (List Nat × List Nat)
  | [] => none
  | [_] => none
  | c :: c2 :: t =>
    if c = 44 ∧ c2 = 44 then some ([], t)
    else (pySplit2 (c2 :: t)).map (fun p => (c :: p.1, p.2))

/-! ## ClientAuthRememberListEntry -/

/-- One entry of the list (host and scheme are Python `str` values, i.e. code
point lists; `tld` is always derived from `host` by the constructor;
`last_modified` is kept at the day resolution the format stores). -/
structure ClientAuthRememberListEntry where
  host : List Nat
  cert : Option ClientCert
  port : Option PortV
  scheme : List Nat
  tld : List Nat
  last_modified_days : Nat
deriving DecidableEq, Repr

/-- `ClientAuthRememberListEntry.KEY_LENGTH = 0x100`. -/
def KEY_LENGTH : Nat := 0x100

/-- `ClientAuthRememberListEntry.ENTRY_LENGTH = 0x500`. -/
def ENTRY_LENGTH : Nat := 0x500

/-- The entry constructor `__init__`: stores the fields and derives
`tld = '.'.join(host.split('.')[-2:])`. -/
def ClientAuthRememberListEntry.make (host : List Nat) (cert : Option ClientCert)
    (port : Option PortV) (scheme : List Nat) (last_modified_days : Nat) :
    ClientAuthRememberListEntry :=
  { host := host, cert := cert, port := port, scheme := scheme,
    tld := tldOf host, last_modified_days := last_modified_days }

/-- The `if self.port is not None` block of `to_bytes`. -/
def portPartOf : Option PortV → Option (List Nat)
  | none => some []
  | some p =>
    match encodeAscii (portStr p) with
    | some pb => some (strB "%2C" ++ pb)
    | none => none

/-- The certificate-region bytes of `to_bytes`: the base64 descriptor
(module id, entry id, serial length, issuer length, serial bytes, issuer
bytes) when a certificate is present, the literal marker otherwise. -/
def certRegionOf : Option ClientCert → Option (List Nat)
  | none => some (strB "no client certificate")
  | some c =>
    match c.get_serial_bytes with
    | none => none
    | some sb =>
      if c.issuer.length < 2 ^ 32 then
        some (b64encode ([0, 0, 0, 0, 0, 0, 0, 0] ++ be32 sb.length ++ be32 c.issuer.length ++
          sb ++ c.issuer))
      else none

/-- `ClientAuthRememberListEntry.to_bytes`. -/
def ClientAuthRememberListEntry.to_bytes (e : ClientAuthRememberListEntry) :
    Option (List Nat) :=
  match encodeAscii e.host, encodeAscii e.scheme, encodeAscii e.tld with
  | some hostB, some schemeB, some tldB =>
    match portPartOf e.port with
    | none => none
    | some portPart =>
      let key := padTo KEY_LENGTH (hostB ++ strB ",,^partitionKey=%28" ++ schemeB ++
        strB "%2C" ++ tldB ++ portPart ++ strB "%29")
      match certRegionOf e.cert with
      | none => none
      | some cr => some (padTo ENTRY_LENGTH (key ++ cr))
  | _, _, _ => none

/-- The unpadded partition-key text built by `to_bytes` before the
`while len(buf) < KEY_LENGTH` padding loop. -/
def keyTextOf (e : ClientAuthRememberListEntry) : List Nat :=
  e.host ++ strB ",,^partitionKey=%28" ++ e.scheme ++ strB "%2C" ++ e.tld ++
    (match e.port with
     | none => []
     | some p => strB "%2C" ++ portStr p) ++ strB "%29"

/-- The descriptor part of the certificate-decoding branch of `from_bytes`:
on the base64-decoded buffer, the two 4-byte big-endian length fields in
bytes 8..16 (`struct.unpack('>II', cert_data[8:16])`, which fails when fewer
than 8 bytes are available) direct the serial and issuer slices (Python
slicing clamps silently), and the serial number is rebuilt as an unsigned
big-endian integer. -/
def certDescOf (dec : List Nat) : Option (Option ClientCert) :=
  match (dec.drop 8).take 8 with
  | [a, b, c, d, a2, b2, c2, d2] =>
    let serial_len := ((a * 256 + b) * 256 + c) * 256 + d
    let issuer_len := ((a2 * 256 + b2) * 256 + c2) * 256 + d2
    some (some
      { serial_number := beNat ((dec.drop 16).take serial_len),
        issuer := (dec.drop (16 + serial_len)).take issuer_len })
  | _ => none

/-- The certificate-decoding branch of `from_bytes`, applied to the
zero-stripped certificate region: the marker decodes to an absent
certificate, anything else is base64-decoded and unpacked by `certDescOf`. -/
def certOf (certRaw : List Nat) : Option (Option ClientCert) :=
  if certRaw = strB "no client certificate" then some none
  else
    match b64decode certRaw with
    | none => none
    | some dec => certDescOf dec

/-- `ClientAuthRememberListEntry.from_bytes` (the scheme group is `\w+` and
therefore ASCII-only, on which `bytes.decode()` is the identity; the domain
group is bound by the source but discarded). -/
def ClientAuthRememberListEntry.from_bytes (data : List Nat)
    (last_modified_days : Nat) : Option ClientAuthRememberListEntry :=
  match pySplit2 data with
  | none => none
  | some (hostB, remaining) =>
    match utf8Decode hostB with
    | none => none
    | some host =>
      match reSearch remaining with
      | none => none
      | some (sch, _dom, portG) =>
        match certOf (rstrip0 (data.drop KEY_LENGTH)) with
        | none => none
        | some cert =>
          some (ClientAuthRememberListEntry.make host cert (portG.map PortV.bytes) sch
            last_modified_days)

/-! ## ClientAuthRememberList -/

/-- The list object: allowed entries and blocked entries. -/
structure ClientAuthRememberList where
  entries_allowed : List ClientAuthRememberListEntry
  entries_blocked : List ClientAuthRememberListEntry
deriving DecidableEq, Repr

/-- `add_entry`: entries without a certificate go to the blocked list,
the rest to the allowed list. -/
def ClientAuthRememberList.add_entry (l : ClientAuthRememberList)
    (e : ClientAuthRememberListEntry) : ClientAuthRememberList :=
  match e.cert with
  | none => { l with entries_blocked := l.entries_blocked ++ [e] }
  | some _ => { l with entries_allowed := l.entries_allowed ++ [e] }

/-- Python `del lst[i]`: a negative index counts from the end; out of range
raises `IndexError`. -/
def pyDel {α : Type} (l : List α) (i : Int) : Option (List α) :=
  let j : Int := if i < 0 then i + l.length else i
  if 0 ≤ j ∧ j < (l.length : Int) then some (l.eraseIdx j.toNat) else none

/-- `remove_entry`. -/
def ClientAuthRememberList.remove_entry (l : ClientAuthRememberList) (position : Int) :
    Option ClientAuthRememberList :=
  if position < (l.entries_allowed.length : Int) then
    (pyDel l.entries_allowed position).map (fun al => { l with entries_allowed := al })
  else
    (pyDel l.entries_blocked (position - l.entries_allowed.length)).map
      (fun bl => { l with entries_blocked := bl })

/-- The checksum loop of `ClientAuthRememberList.to_bytes`: XOR of sequential
2-byte big-endian words into the accumulator; `struct.unpack_from` fails on a
trailing odd byte. -/
def foldWords : Nat → List Nat → Option Nat
  | acc, [] => some acc
  | acc, a :: b :: t => foldWords (acc ^^^ (a * 256 + b)) t
  | _, [_] => none

/-- One slot of `ClientAuthRememberList.to_bytes`: the 2-byte constant 1, the
2-byte day count (`struct.pack('>H', ...)` bounds it), the entry bytes, and
the checksum seeded with `1 ^ last_modify_days` prepended. -/
def slot_bytes (e : ClientAuthRememberListEntry) : Option (List Nat) :=
  if e.last_modified_days < 65536 then
    match e.to_bytes with
    | none => none
    | some eb =>
      match foldWords (1 ^^^ e.last_modified_days) eb with
      | none => none
      | some ck => some (be16 ck ++ be16 1 ++ be16 e.last_modified_days ++ eb)
  else none

/-- Concatenation of the slots of a list of entries. -/
def slotsConcat : List ClientAuthRememberListEntry → Option (List Nat)
  | [] => some []
  | e :: rest =>
    match slot_bytes e, slotsConcat rest with
    | some s, some r => some (s ++ r)
    | _, _ => none

/-- `ClientAuthRememberList.to_bytes`: allowed entries first, then blocked. -/
def ClientAuthRememberList.to_bytes (l : ClientAuthRememberList) : Option (List Nat) :=
  slotsConcat (l.entries_allowed ++ l.entries_blocked)

/-- Decode failure taxonomy of `from_file` (`ValueError('Length mismatch: ...')`). -/
inductive ListError where
  | lengthMismatch (len : Nat)
deriving DecidableEq, Repr

/-- One iteration of the `from_file` loop on a record slice: `>HHH` header
(checksum and the constant are read but unused), then `from_bytes` on the
remainder with the day count from offsets 4..6. -/
def decodeSlot (slice : List Nat) : Option ClientAuthRememberListEntry :=
  if slice.length < 6 then none
  else
    let _checksum := readBE16 slice 0
    let _static := readBE16 slice 2
    ClientAuthRememberListEntry.from_bytes (slice.drop 6) (readBE16 slice 4)

/-- The `ctr`-th record slice of the file data. -/
def sliceAt (data : List Nat) (i : Nat) : List Nat :=
  (data.drop ((ENTRY_LENGTH + 6) * i)).take (ENTRY_LENGTH + 6)

/-- The `from_file` loop: each slice that decodes is added; a failing slice is
skipped (`except Exception: pass`). -/
def fromSlices : List (List Nat) → ClientAuthRememberList → ClientAuthRememberList
  | [], acc => acc
  | s :: rest, acc =>
    match decodeSlot s with
    | some e => fromSlices rest (acc.add_entry e)
    | none => fromSlices rest acc

/-- `ClientAuthRememberList.from_file`, applied to the file contents: empty
data is an empty list, a length that is not a multiple of the record stride
is a fatal error, otherwise the stride-sized slices are decoded in order. -/
def ClientAuthRememberList.from_file (data : List Nat) :
    Except ListError ClientAuthRememberList :=
  if data.length = 0 then .ok { entries_allowed := [], entries_blocked := [] }
  else if data.length % (ENTRY_LENGTH + 6) ≠ 0 then .error (.lengthMismatch data.length)
  else .ok (fromSlices ((List.range (data.length / (ENTRY_LENGTH + 6))).map (sliceAt data))
    { entries_allowed := [], entries_blocked := [] })

/-! ## Supporting lemmas: byte encodings -/

theorem beBytes_length (k n : Nat) : (beBytes k n).length = k := by
  induction k generalizing n with
  | zero => rfl
  | succ k ih => simp [beBytes, ih]

theorem beBytes_lt (k n : Nat) : ∀ b ∈ beBytes k n, b < 256 := by
  induction k generalizing n with
  | zero => simp [beBytes]
  | succ k ih =>
    intro b hb
    simp only [beBytes, List.mem_append, List.mem_singleton] at hb
    rcases hb with hb | hb
    · exact ih _ _ hb
    · omega

theorem beNat_append_one (l : List Nat) (x : Nat) :
    beNat (l ++ [x]) = beNat l * 256 + x := by
  simp [beNat, List.foldl_append]

theorem beNat_beBytes (k n : Nat) (h : n < 256 ^ k) : beNat (beBytes k n) = n := by
  induction k generalizing n with
  | zero => simp [beBytes, beNat]; omega
  | succ k ih =>
    have hdiv : n / 256 < 256 ^ k := by
      rw [Nat.div_lt_iff_lt_mul (by omega)]
      calc n < 256 ^ (k + 1) := h
        _ = 256 ^ k * 256 := by ring
    simp [beBytes, beNat_append_one, ih _ hdiv]
    omega

theorem beNat_cons (c : Nat) (t : List Nat) : beNat (c :: t) = t.foldl (fun a b => a * 256 + b) c := by
  simp [beNat]

theorem beNat_dropWhile_zero (l : List Nat) :
    beNat (l.dropWhile (fun b => b = 0)) = beNat l := by
  induction l with
  | nil => rfl
  | cons c t ih =>
    by_cases hc : c = 0
    · subst hc
      simpa [List.dropWhile_cons, beNat_cons] using ih
    · simp [List.dropWhile_cons, hc]

theorem readBE16_cons2 (a b : Nat) (t : List Nat) : readBE16 (a :: b :: t) 0 = a * 256 + b := by
  simp [readBE16, List.getD]

/-! ## Supporting lemmas: the checksum fold -/

theorem foldWords_cons2 (acc a b : Nat) (t : List Nat) :
    foldWords acc (a :: b :: t) = foldWords (acc ^^^ (a * 256 + b)) t := rfl

theorem foldWords_isSome_of_even (acc : Nat) (l : List Nat) :
    l.length % 2 = 0 → (foldWords acc l).isSome := by
  induction acc, l using foldWords.induct with
  | case1 acc => intro _; simp [foldWords]
  | case2 acc a b t ih =>
    intro h
    rw [foldWords_cons2]
    exact ih (by simp only [List.length_cons] at h; omega)
  | case3 x head => intro h; simp at h

theorem foldWords_xor (acc : Nat) (l : List Nat) (c : Nat) :
    foldWords (acc ^^^ c) l = (foldWords acc l).map (· ^^^ c) := by
  induction acc, l using foldWords.induct generalizing c with
  | case1 acc => simp [foldWords]
  | case2 acc a b t ih =>
    rw [foldWords_cons2, foldWords_cons2]
    have h : acc ^^^ c ^^^ (a * 256 + b) = acc ^^^ (a * 256 + b) ^^^ c := by
      rw [Nat.xor_assoc, Nat.xor_assoc, Nat.xor_comm c]
    rw [h, ih]
  | case3 x head => simp [foldWords]

theorem foldWords_lt (acc : Nat) (l : List Nat) (ck : Nat) :
    (∀ b ∈ l, b < 256) → acc < 65536 → foldWords acc l = some ck → ck < 65536 := by
  induction acc, l using foldWords.induct generalizing ck with
  | case1 acc => intro _ ha h; simp [foldWords] at h; omega
  | case2 acc a b t ih =>
    intro hl ha h
    rw [foldWords_cons2] at h
    have hab : a * 256 + b < 65536 := by
      have h1 : a < 256 := hl a (by simp)
      have h2 : b < 256 := hl b (by simp)
      omega
    have hx : acc ^^^ (a * 256 + b) < 65536 := by
      have := @Nat.xor_lt_two_pow acc (a * 256 + b) 16 (by omega) (by omega)
      omega
    exact ih ck (fun x hx2 => hl x (by simp only [List.mem_cons]; tauto)) hx h
  | case3 x head => intro _ _ h; simp [foldWords] at h

/-- The 2-byte big-endian word of a packed 16-bit value folds back to it. -/
theorem foldWords_be16 (s d : Nat) (l : List Nat) (hd : d < 65536) :
    foldWords s (be16 d ++ l) = foldWords (s ^^^ d) l := by
  have h1 : be16 d ++ l = d / 256 % 256 :: d % 256 :: l := by
    simp [be16, beBytes]
  rw [h1, foldWords_cons2]
  congr 1
  have : d / 256 % 256 * 256 + d % 256 = d := by omega
  rw [this]

/-! ## Supporting lemmas: padding and stripping -/

theorem padTo_length (n : Nat) (l : List Nat) : (padTo n l).length = max n l.length := by
  simp [padTo]
  omega

theorem padTo_eq_append (n : Nat) (l : List Nat) :
    padTo n l = l ++ List.replicate (n - l.length) 0 := rfl

theorem padTo_of_le (n : Nat) (l : List Nat) (h : n ≤ l.length) : padTo n l = l := by
  simp [padTo, Nat.sub_eq_zero_of_le h]

theorem dropWhile_zero_replicate_append (n : Nat) (l : List Nat) :
    List.dropWhile (fun b => b = 0) (List.replicate n 0 ++ l) =
      List.dropWhile (fun b => b = 0) l := by
  induction n with
  | zero => rfl
  | succ n ih => simp [List.replicate_succ, List.dropWhile_cons, ih]

theorem rstrip0_append_replicate (l : List Nat) (n : Nat) :
    rstrip0 (l ++ List.replicate n 0) = rstrip0 l := by
  simp [rstrip0, List.reverse_append, List.reverse_replicate, dropWhile_zero_replicate_append]

theorem dropWhile_zero_eq_self (m : List Nat) (h : ∀ c ∈ m, c ≠ 0) :
    List.dropWhile (fun b => b = 0) m = m := by
  cases m with
  | nil => rfl
  | cons c t =>
    have : c ≠ 0 := h c (by simp)
    simp [List.dropWhile_cons, this]

theorem rstrip0_eq_self (l : List Nat) (h : ∀ c ∈ l, c ≠ 0) : rstrip0 l = l := by
  unfold rstrip0
  rw [dropWhile_zero_eq_self l.reverse (fun c hc => h c (List.mem_reverse.mp hc)),
    List.reverse_reverse]

/-! ## Supporting lemmas: base64 -/

theorem b64EncChar_range (v : Nat) : 43 ≤ b64EncChar v ∧ b64EncChar v ≤ 122 := by
  unfold b64EncChar
  split <;> [omega; split <;> [omega; split <;> [omega; split <;> omega]]]

theorem b64EncChar_ne_61 (v : Nat) : b64EncChar v ≠ 61 := by
  unfold b64EncChar
  split <;> [omega; split <;> [omega; split <;> [omega; split <;> omega]]]

theorem b64DecChar_fin : ∀ v : Fin 64, b64DecChar (b64EncChar v.val) = some v.val := by decide

theorem b64DecChar_b64EncChar (v : Nat) (h : v < 64) :
    b64DecChar (b64EncChar v) = some v := b64DecChar_fin ⟨v, h⟩

theorem b64_roundtrip (l : List Nat) (hl : ∀ b ∈ l, b < 256) :
    b64decode (b64encode l) = some l := by
  induction l using b64encode.induct with
  | case1 a b c t ih =>
    have ha : a < 256 := hl a (by simp)
    have hb : b < 256 := hl b (by simp)
    have hc : c < 256 := hl c (by simp)
    have ih' := ih (fun x hx => hl x (by simp only [List.mem_cons]; tauto))
    rw [b64encode, b64decode]
    simp [b64DecChar_b64EncChar (a / 4) (by omega),
      b64DecChar_b64EncChar (a % 4 * 16 + b / 16) (by omega),
      b64DecChar_b64EncChar (b % 16 * 4 + c / 64) (by omega),
      b64DecChar_b64EncChar (c % 64) (by omega),
      b64EncChar_ne_61, ih']
    omega
  | case2 a b =>
    have ha : a < 256 := hl a (by simp)
    have hb : b < 256 := hl b (by simp)
    rw [b64encode, b64decode]
    simp [b64DecChar_b64EncChar (a / 4) (by omega),
      b64DecChar_b64EncChar (a % 4 * 16 + b / 16) (by omega),
      b64DecChar_b64EncChar (b % 16 * 4) (by omega),
      b64EncChar_ne_61]
    omega
  | case3 a =>
    have ha : a < 256 := hl a (by simp)
    rw [b64encode, b64decode]
    simp [b64DecChar_b64EncChar (a / 4) (by omega),
      b64DecChar_b64EncChar (a % 4 * 16) (by omega)]
    omega
  | case4 => rfl

theorem b64encode_mem_range (l : List Nat) : ∀ x ∈ b64encode l, 43 ≤ x ∧ x ≤ 122 := by
  induction l using b64encode.induct with
  | case1 a b c t ih =>
    intro x hx
    rw [b64encode] at hx
    simp only [List.mem_cons] at hx
    rcases hx with h | h | h | h | h
    all_goals first
      | (subst h; exact b64EncChar_range _)
      | exact ih x h
  | case2 a b =>
    intro x hx
    rw [b64encode] at hx
    simp only [List.mem_cons, List.not_mem_nil, or_false] at hx
    rcases hx with h | h | h | h <;> subst h
    · exact b64EncChar_range _
    · exact b64EncChar_range _
    · exact b64EncChar_range _
    · omega
  | case3 a =>
    intro x hx
    rw [b64encode] at hx
    simp only [List.mem_cons, List.not_mem_nil, or_false] at hx
    rcases hx with h | h | h | h <;> subst h
    · exact b64EncChar_range _
    · exact b64EncChar_range _
    · omega
    · omega
  | case4 => intro x hx; simp [b64encode] at hx

theorem b64encode_length_mod3 (l : List Nat) (h : l.length % 3 = 0) :
    (b64encode l).length = 4 * (l.length / 3) := by
  induction l using b64encode.induct with
  | case1 a b c t ih =>
    simp only [List.length_cons] at h ⊢
    rw [b64encode]
    simp only [List.length_cons]
    rw [ih (by omega)]
    omega
  | case2 a b => simp at h
  | case3 a => simp at h
  | case4 => rfl

/-! ## Supporting lemmas: UTF-8, splitting, spans, literals -/

theorem utf8Go_ascii (fuel : Nat) (l : List Nat) (h : ∀ c ∈ l, c < 128)
    (hf : l.length ≤ fuel) : utf8Go fuel l = some l := by
  induction fuel generalizing l with
  | zero =>
    cases l with
    | nil => rfl
    | cons b t => simp at hf
  | succ fuel ih =>
    cases l with
    | nil => rfl
    | cons b t =>
      have hb : b < 128 := h b (by simp)
      rw [utf8Go, utf8Step.eq_def, if_pos hb]
      show (utf8Go fuel t).map (b :: ·) = some (b :: t)
      rw [ih t (fun c hc => h c (by simp [hc])) (by simp at hf; omega)]
      rfl

theorem utf8Decode_ascii (l : List Nat) (h : ∀ c ∈ l, c < 128) : utf8Decode l = some l :=
  utf8Go_ascii l.length l h le_rfl

theorem pySplit2_cons2 (c c2 : Nat) (t : List Nat) :
    pySplit2 (c :: c2 :: t) =
      if c = 44 ∧ c2 = 44 then some ([], t)
      else (pySplit2 (c2 :: t)).map (fun p => (c :: p.1, p.2)) := rfl

theorem pySplit2_append (host rest : List Nat) (h : 44 ∉ host) :
    pySplit2 (host ++ 44 :: 44 :: rest) = some (host, rest) := by
  induction host with
  | nil => rw [List.nil_append, pySplit2_cons2]; simp
  | cons c t ih =>
    have hc : c ≠ 44 := fun hx => h (by simp [hx])
    have ih' := ih (fun hx => h (by simp [hx]))
    cases t with
    | nil =>
      rw [List.cons_append, List.nil_append, pySplit2_cons2, if_neg (by simp [hc])]
      rw [pySplit2_cons2]
      simp
    | cons c2 t2 =>
      rw [List.cons_append, List.cons_append, pySplit2_cons2, if_neg (by simp [hc])]
      rw [List.cons_append] at ih'
      rw [ih']
      rfl

theorem takeWhile_append_of (p : Nat → Bool) (a b : List Nat)
    (ha : ∀ c ∈ a, p c = true) (hb : ∀ c, b.head? = some c → p c = false) :
    (a ++ b).takeWhile p = a := by
  induction a with
  | nil =>
    cases b with
    | nil => rfl
    | cons c t => simp [List.takeWhile_cons, hb c rfl]
  | cons c t ih =>
    have hc := ha c (by simp)
    have ih' := ih (fun x hx => ha x (by simp [hx]))
    simp [List.takeWhile_cons, hc, ih']

theorem dropWhile_append_of (p : Nat → Bool) (a b : List Nat)
    (ha : ∀ c ∈ a, p c = true) (hb : ∀ c, b.head? = some c → p c = false) :
    (a ++ b).dropWhile p = b := by
  induction a with
  | nil =>
    cases b with
    | nil => rfl
    | cons c t => simp [List.dropWhile_cons, hb c rfl]
  | cons c t ih =>
    have hc := ha c (by simp)
    have ih' := ih (fun x hx => ha x (by simp [hx]))
    simp [List.dropWhile_cons, hc, ih']

theorem stripLit_append (lit s : List Nat) : stripLit lit (lit ++ s) = some s := by
  induction lit with
  | nil => rfl
  | cons c t ih => simp [stripLit, ih]

theorem stripLit_ne_head (l : Nat) (lt : List Nat) (c : Nat) (st : List Nat) (h : c ≠ l) :
    stripLit (l :: lt) (c :: st) = none := by
  simp [stripLit, h]

/-! ## Supporting lemmas: character classes -/

theorem wordChar_lt (c : Nat) (h : wordChar c = true) : c < 128 := by
  simp only [wordChar, decide_eq_true_eq] at h; omega

theorem wordChar_ne_37 (c : Nat) (h : wordChar c = true) : c ≠ 37 := by
  simp only [wordChar, decide_eq_true_eq] at h; omega

theorem domChar_lt (c : Nat) (h : domChar c = true) : c < 128 := by
  simp only [domChar, decide_eq_true_eq] at h; omega

theorem domChar_ne_37 (c : Nat) (h : domChar c = true) : c ≠ 37 := by
  simp only [domChar, decide_eq_true_eq] at h; omega

theorem domChar_ne_44 (c : Nat) (h : domChar c = true) : c ≠ 44 := by
  simp only [domChar, decide_eq_true_eq] at h; omega

theorem digitChar_of_natDecGo (fuel m : Nat) : ∀ c ∈ natDecGo fuel m, digitChar c = true := by
  induction fuel generalizing m with
  | zero => simp [natDecGo]
  | succ fuel ih =>
    intro c hc
    rw [natDecGo] at hc
    split at hc
    · simp only [List.mem_singleton] at hc
      simp only [digitChar, decide_eq_true_eq]
      omega
    · simp only [List.mem_append, List.mem_singleton] at hc
      rcases hc with hc | hc
      · exact ih (m / 10) c hc
      · simp only [digitChar, decide_eq_true_eq]
        omega

theorem natDec_ne_nil (n : Nat) : natDec n ≠ [] := by
  rw [natDec, natDecGo]
  split <;> simp

theorem digitChar_mem_natDec (n : Nat) : ∀ c ∈ natDec n, digitChar c = true :=
  fun c hc => digitChar_of_natDecGo (n + 1) n c hc

theorem digitChar_lt (c : Nat) (h : digitChar c = true) : c < 128 := by
  simp only [digitChar, decide_eq_true_eq] at h; omega

/-! ## Supporting lemmas: the pattern matcher -/

theorem strB_pct28 : strB "%28" = [37, 50, 56] := by decide

theorem strB_pct2C : strB "%2C" = [37, 50, 67] := by decide

theorem strB_pct29 : strB "%29" = [37, 50, 57] := by decide

theorem matchAt_ne_37 (c : Nat) (t : List Nat) (h : c ≠ 37) : matchAt (c :: t) = none := by
  rw [matchAt, strB_pct28, stripLit_ne_head 37 [50, 56] c t h]

theorem reSearch_cons_ne_37 (c : Nat) (t : List Nat) (h : c ≠ 37) :
    reSearch (c :: t) = reSearch t := by
  rw [reSearch, matchAt_ne_37 c t h]

theorem reSearch_append_no37 (pre x : List Nat) (h : ∀ c ∈ pre, c ≠ 37) :
    reSearch (pre ++ x) = reSearch x := by
  induction pre with
  | nil => rfl
  | cons c t ih =>
    rw [List.cons_append, reSearch_cons_ne_37 c _ (h c (by simp)),
      ih (fun d hd => h d (by simp [hd]))]

theorem headNot_cons (p : Nat → Bool) (c : Nat) (x : List Nat) (h : p c = false) :
    ∀ d, (c :: x).head? = some d → p d = false := by
  intro d hd
  simp only [List.head?_cons, Option.some.injEq] at hd
  rw [← hd]
  exact h

theorem stripLit3_eq (a b c : Nat) (x : List Nat) :
    stripLit [a, b, c] (a :: b :: c :: x) = some x := by
  simp [stripLit]

theorem groupBody_noPort (junk : List Nat) : groupBody (37 :: 50 :: 57 :: junk) = none := by
  rw [groupBody, strB_pct2C]
  simp [stripLit]

theorem tryGroup_37 (x : List Nat) : tryGroup (37 :: x) = groupBody (37 :: x) := by
  rw [tryGroup]
  simp

theorem parseTail_noPort (junk : List Nat) :
    parseTail (37 :: 50 :: 57 :: junk) = some (none, junk) := by
  rw [parseTail, tryGroup_37, groupBody_noPort, strB_pct29]
  simp [stripLit]

theorem groupBody_port (ds junk : List Nat) (hd0 : ds ≠ [])
    (hd : ∀ c ∈ ds, digitChar c = true) :
    groupBody (37 :: 50 :: 67 :: (ds ++ 37 :: 50 :: 57 :: junk)) =
      some (strB "%2C" ++ ds, junk) := by
  have htw := takeWhile_append_of digitChar ds (37 :: 50 :: 57 :: junk) hd
    (headNot_cons digitChar 37 _ (by decide))
  have hdw := dropWhile_append_of digitChar ds (37 :: 50 :: 57 :: junk) hd
    (headNot_cons digitChar 37 _ (by decide))
  rw [groupBody, strB_pct2C]
  simp only [stripLit3_eq, htw, hdw, if_neg hd0, strB_pct29, stripLit3_eq, Option.map_some]
  simp [stripLit]

theorem parseTail_port (ds junk : List Nat) (hd0 : ds ≠ [])
    (hd : ∀ c ∈ ds, digitChar c = true) :
    parseTail (37 :: 50 :: 67 :: (ds ++ 37 :: 50 :: 57 :: junk)) =
      some (some (strB "%2C" ++ ds), junk) := by
  rw [parseTail, tryGroup_37, groupBody_port ds junk hd0 hd]

theorem matchAt_keyNoPort (scheme tld junk : List Nat)
    (hs0 : scheme ≠ []) (hs : ∀ c ∈ scheme, wordChar c = true)
    (ht0 : tld ≠ []) (ht : ∀ c ∈ tld, domChar c = true) :
    matchAt (37 :: 50 :: 56 :: (scheme ++ 37 :: 50 :: 67 :: (tld ++ 37 :: 50 :: 57 :: junk))) =
      some (scheme, tld, none) := by
  have hsw := takeWhile_append_of wordChar scheme (37 :: 50 :: 67 :: (tld ++ 37 :: 50 :: 57 :: junk))
    hs (headNot_cons wordChar 37 _ (by decide))
  have hsd := dropWhile_append_of wordChar scheme (37 :: 50 :: 67 :: (tld ++ 37 :: 50 :: 57 :: junk))
    hs (headNot_cons wordChar 37 _ (by decide))
  have htw := takeWhile_append_of domChar tld (37 :: 50 :: 57 :: junk)
    ht (headNot_cons domChar 37 _ (by decide))
  have htd := dropWhile_append_of domChar tld (37 :: 50 :: 57 :: junk)
    ht (headNot_cons domChar 37 _ (by decide))
  rw [matchAt, strB_pct28]
  simp only [stripLit3_eq, hsw, hsd, if_neg hs0, strB_pct2C, htw, htd, if_neg ht0,
    parseTail_noPort]

theorem matchAt_keyPort (scheme tld ds junk : List Nat)
    (hs0 : scheme ≠ []) (hs : ∀ c ∈ scheme, wordChar c = true)
    (ht0 : tld ≠ []) (ht : ∀ c ∈ tld, domChar c = true)
    (hd0 : ds ≠ []) (hd : ∀ c ∈ ds, digitChar c = true) :
    matchAt (37 :: 50 :: 56 :: (scheme ++ 37 :: 50 :: 67 ::
        (tld ++ 37 :: 50 :: 67 :: (ds ++ 37 :: 50 :: 57 :: junk)))) =
      some (scheme, tld, some (strB "%2C" ++ ds)) := by
  have hsw := takeWhile_append_of wordChar scheme
    (37 :: 50 :: 67 :: (tld ++ 37 :: 50 :: 67 :: (ds ++ 37 :: 50 :: 57 :: junk)))
    hs (headNot_cons wordChar 37 _ (by decide))
  have hsd := dropWhile_append_of wordChar scheme
    (37 :: 50 :: 67 :: (tld ++ 37 :: 50 :: 67 :: (ds ++ 37 :: 50 :: 57 :: junk)))
    hs (headNot_cons wordChar 37 _ (by decide))
  have htw := takeWhile_append_of domChar tld (37 :: 50 :: 67 :: (ds ++ 37 :: 50 :: 57 :: junk))
    ht (headNot_cons domChar 37 _ (by decide))
  have htd := dropWhile_append_of domChar tld (37 :: 50 :: 67 :: (ds ++ 37 :: 50 :: 57 :: junk))
    ht (headNot_cons domChar 37 _ (by decide))
  rw [matchAt, strB_pct28]
  simp only [stripLit3_eq, hsw, hsd, if_neg hs0, strB_pct2C, htw, htd, if_neg ht0,
    parseTail_port ds junk hd0 hd]

/-! ## Supporting lemmas: tld derivation -/

theorem splitByte_ne_nil (b : Nat) (l : List Nat) : splitByte b l ≠ [] := by
  induction l with
  | nil => simp [splitByte]
  | cons c t ih =>
    rw [splitByte]
    split
    · simp
    · split <;> simp

theorem splitByte_mem (b : Nat) (l : List Nat) :
    ∀ p ∈ splitByte b l, ∀ c ∈ p, c ∈ l ∧ c ≠ b := by
  induction l with
  | nil =>
    intro p hp c hc
    simp [splitByte] at hp
    subst hp
    simp at hc
  | cons c0 t ih =>
    intro p hp c hc
    rw [splitByte] at hp
    split at hp
    · rename_i hc0
      simp only [List.mem_cons] at hp
      rcases hp with hp | hp
      · subst hp; simp at hc
      · have := ih p hp c hc
        exact ⟨by simp [this.1], this.2⟩
    · rename_i hc0
      split at hp
      · rename_i h r hsplit
        simp only [List.mem_cons] at hp
        rcases hp with hp | hp
        · subst hp
          simp only [List.mem_cons] at hc
          rcases hc with hc | hc
          · subst hc; exact ⟨by simp, hc0⟩
          · have := ih h (by rw [hsplit]; simp) c hc
            exact ⟨by simp [this.1], this.2⟩
        · have := ih p (by rw [hsplit]; simp [hp]) c hc
          exact ⟨by simp [this.1], this.2⟩
      · rename_i hsplit
        exact absurd hsplit (splitByte_ne_nil b t)

theorem splitByte_single (b : Nat) (l p : List Nat) (h : splitByte b l = [p]) : p = l := by
  induction l generalizing p with
  | nil =>
    rw [splitByte] at h
    simp only [List.cons.injEq] at h
    exact h.1.symm
  | cons c t ih =>
    rw [splitByte] at h
    split at h
    · rename_i hc
      simp only [List.cons.injEq] at h
      exact absurd h.2 (splitByte_ne_nil b t)
    · rename_i hc
      split at h
      · rename_i hd r hsplit
        simp only [List.cons.injEq] at h
        have hr : r = [] := h.2
        have : hd = t := ih hd (by rw [hsplit, hr])
        rw [h.1.symm, this]
      · rename_i hsplit
        exact absurd hsplit (splitByte_ne_nil b t)

theorem joinDot_mem (ps : List (List Nat)) :
    ∀ c ∈ joinDot ps, (∃ p ∈ ps, c ∈ p) ∨ c = 46 := by
  induction ps using joinDot.induct with
  | case1 => simp [joinDot]
  | case2 p => intro c hc; exact Or.inl ⟨p, by simp, by simpa [joinDot] using hc⟩
  | case3 p ps hne ih =>
    intro c hc
    cases ps with
    | nil => exact absurd rfl hne
    | cons q qs =>
      have hje : joinDot (p :: q :: qs) = p ++ 46 :: joinDot (q :: qs) := rfl
      rw [hje] at hc
      simp only [List.mem_append, List.mem_cons] at hc
      rcases hc with hc | hc | hc
      · exact Or.inl ⟨p, by simp, hc⟩
      · exact Or.inr hc
      · rcases ih c hc with ⟨p', hp', hcp'⟩ | h46
        · exact Or.inl ⟨p', by simp [hp'], hcp'⟩
        · exact Or.inr h46

theorem tldOf_mem (host : List Nat) : ∀ c ∈ tldOf host, c ∈ host ∨ c = 46 := by
  intro c hc
  rw [tldOf] at hc
  rcases joinDot_mem _ c hc with ⟨p, hp, hcp⟩ | h46
  · have hp' : p ∈ splitByte 46 host := List.mem_of_mem_drop hp
    exact Or.inl (splitByte_mem 46 host p hp' c hcp).1
  · exact Or.inr h46

theorem tldOf_ne_nil (host : List Nat) (h : host ≠ []) : tldOf host ≠ [] := by
  rw [tldOf]
  rcases hsp : splitByte 46 host with _ | ⟨p, ps⟩
  · exact absurd hsp (splitByte_ne_nil 46 host)
  cases ps with
  | nil =>
    simp only [List.length_singleton]
    rw [show (1 : Nat) - 2 = 0 by omega, List.drop_zero]
    have : p = host := splitByte_single 46 host p hsp
    rw [joinDot, this]
    exact h
  | cons q qs =>
    have hdl : ((p :: q :: qs).drop ((p :: q :: qs).length - 2)).length = 2 := by
      rw [List.length_drop]
      simp only [List.length_cons]
      omega
    rcases hd : (p :: q :: qs).drop ((p :: q :: qs).length - 2) with _ | ⟨a, _ | ⟨b', t⟩⟩
    · rw [hd] at hdl; simp at hdl
    · rw [hd] at hdl; simp at hdl
    · rw [hd] at hdl
      simp only [List.length_cons] at hdl
      have ht : t = [] := by
        have : t.length = 0 := by omega
        exact List.eq_nil_of_length_eq_zero this
      subst ht
      simp [joinDot]

/-! ## Supporting lemmas: the encoder in normal form -/

theorem encodeAscii_of (l : List Nat) (h : ∀ c ∈ l, c < 128) : encodeAscii l = some l := by
  rw [encodeAscii, if_pos]
  rw [List.all_eq_true]
  intro c hc
  simpa using h c hc

theorem portPartOf_none : portPartOf none = some [] := rfl

theorem portPartOf_int (n : Nat) :
    portPartOf (some (.int n)) = some (strB "%2C" ++ natDec n) := by
  rw [portPartOf]
  rw [show portStr (.int n) = natDec n from rfl]
  rw [encodeAscii_of (natDec n) (fun c hc => digitChar_lt c (digitChar_mem_natDec n c hc))]

theorem certRegionOf_some (c : ClientCert) (hser : c.serial_number < 256 ^ 20)
    (hiss : c.issuer.length < 2 ^ 32) :
    certRegionOf (some c) =
      some (b64encode ([0, 0, 0, 0, 0, 0, 0, 0] ++
        be32 ((beBytes 20 c.serial_number).dropWhile (fun b => b = 0)).length ++
        be32 c.issuer.length ++
        (beBytes 20 c.serial_number).dropWhile (fun b => b = 0) ++ c.issuer)) := by
  rw [certRegionOf, ClientCert.get_serial_bytes, if_pos hser]
  show (if c.issuer.length < 2 ^ 32 then _ else none) = _
  rw [if_pos hiss]

theorem to_bytes_eq (e : ClientAuthRememberListEntry) (pp cr : List Nat)
    (hh : ∀ c ∈ e.host, c < 128) (hs : ∀ c ∈ e.scheme, c < 128) (ht : ∀ c ∈ e.tld, c < 128)
    (hpp : portPartOf e.port = some pp) (hcr : certRegionOf e.cert = some cr) :
    e.to_bytes = some (padTo ENTRY_LENGTH
      (padTo KEY_LENGTH (e.host ++ strB ",,^partitionKey=%28" ++ e.scheme ++ strB "%2C" ++
        e.tld ++ pp ++ strB "%29") ++ cr)) := by
  rw [ClientAuthRememberListEntry.to_bytes, encodeAscii_of _ hh, encodeAscii_of _ hs,
    encodeAscii_of _ ht, hpp, hcr]

/-! ## Supporting lemmas: the certificate region decodes back -/

theorem marker_ne_zero : ∀ c ∈ strB "no client certificate", c ≠ 0 := by decide

theorem marker_mem_32 : 32 ∈ strB "no client certificate" := by decide

theorem be32_cons (n : Nat) :
    be32 n = [n / 256 / 256 / 256 % 256, n / 256 / 256 % 256, n / 256 % 256, n % 256] := by
  simp [be32, beBytes]

theorem certDescOf_eq (dec : List Nat) (a b c d a2 b2 c2 d2 : Nat)
    (h : (dec.drop 8).take 8 = [a, b, c, d, a2, b2, c2, d2]) :
    certDescOf dec = some (some
      { serial_number := beNat ((dec.drop 16).take (((a * 256 + b) * 256 + c) * 256 + d)),
        issuer := (dec.drop (16 + (((a * 256 + b) * 256 + c) * 256 + d))).take
          (((a2 * 256 + b2) * 256 + c2) * 256 + d2) }) := by
  rw [certDescOf, h]

theorem certOf_certRegion (cert : Option ClientCert) (cr : List Nat) (pad : Nat)
    (hcr : certRegionOf cert = some cr)
    (hcert : ∀ cc, cert = some cc → cc.serial_number < 256 ^ 20 ∧
      cc.issuer.length < 2 ^ 32 ∧ ∀ b ∈ cc.issuer, b < 256) :
    certOf (rstrip0 (cr ++ List.replicate pad 0)) = some cert := by
  rw [rstrip0_append_replicate]
  cases cert with
  | none =>
    rw [certRegionOf] at hcr
    have hcr' : cr = strB "no client certificate" := by
      simp only [Option.some.injEq] at hcr
      exact hcr.symm
    subst hcr'
    rw [rstrip0_eq_self _ marker_ne_zero, certOf, if_pos rfl]
  | some cc =>
    obtain ⟨hser, hiss, hbytes⟩ := hcert cc rfl
    obtain ⟨sn, iss⟩ := cc
    simp only at hser hiss hbytes
    rw [certRegionOf_some ⟨sn, iss⟩ hser hiss] at hcr
    simp only at hcr
    set sb := (beBytes 20 sn).dropWhile (fun b => b = 0) with hsbdef
    have hslen : sb.length ≤ 20 := by
      have := (List.dropWhile_sublist (l := beBytes 20 sn) (fun b => b = 0)).length_le
      rw [beBytes_length] at this
      exact this
    have hcr' : cr = b64encode ([0, 0, 0, 0, 0, 0, 0, 0] ++ be32 sb.length ++
        be32 iss.length ++ sb ++ iss) := by
      simp only [Option.some.injEq] at hcr
      exact hcr.symm
    subst hcr'
    set buf : List Nat := [0, 0, 0, 0, 0, 0, 0, 0] ++ be32 sb.length ++ be32 iss.length ++
      sb ++ iss with hbufdef
    have hbufBytes : ∀ b ∈ buf, b < 256 := by
      intro b hb
      rw [hbufdef] at hb
      simp only [List.append_assoc, List.mem_append] at hb
      rcases hb with hb | hb | hb | hb | hb
      · simp at hb; omega
      · exact beBytes_lt 4 sb.length b hb
      · exact beBytes_lt 4 iss.length b hb
      · exact beBytes_lt 20 sn b ((List.dropWhile_sublist _).mem hb)
      · exact hbytes b hb
    have hrange := b64encode_mem_range buf
    rw [rstrip0_eq_self _ (fun c hc => by have := hrange c hc; omega)]
    rw [certOf, if_neg (fun heq => by
      have h32 := marker_mem_32
      rw [← heq] at h32
      have := hrange 32 h32
      omega)]
    rw [b64_roundtrip buf hbufBytes]
    show certDescOf buf = some (some ⟨sn, iss⟩)
    have hdrop8 : buf.drop 8 = be32 sb.length ++ (be32 iss.length ++ (sb ++ iss)) := by
      rw [hbufdef]
      simp only [List.append_assoc]
      exact List.drop_left' rfl
    have htake8 : (buf.drop 8).take 8 =
        [sb.length / 256 / 256 / 256 % 256, sb.length / 256 / 256 % 256,
          sb.length / 256 % 256, sb.length % 256,
          iss.length / 256 / 256 / 256 % 256, iss.length / 256 / 256 % 256,
          iss.length / 256 % 256, iss.length % 256] := by
      rw [hdrop8, be32_cons, be32_cons]
      rfl
    rw [certDescOf_eq buf _ _ _ _ _ _ _ _ htake8]
    have hS : ((sb.length / 256 / 256 / 256 % 256 * 256 + sb.length / 256 / 256 % 256) * 256 +
        sb.length / 256 % 256) * 256 + sb.length % 256 = sb.length := by omega
    have hI : ((iss.length / 256 / 256 / 256 % 256 * 256 + iss.length / 256 / 256 % 256) * 256 +
        iss.length / 256 % 256) * 256 + iss.length % 256 = iss.length := by omega
    rw [hS, hI]
    have hdrop16 : buf.drop 16 = sb ++ iss := by
      rw [hbufdef]
      have : ([0, 0, 0, 0, 0, 0, 0, 0] ++ be32 sb.length ++ be32 iss.length).length = 16 := by
        simp [be32, beBytes_length]
      calc ([0, 0, 0, 0, 0, 0, 0, 0] ++ be32 sb.length ++ be32 iss.length ++ sb ++ iss).drop 16
          = (([0, 0, 0, 0, 0, 0, 0, 0] ++ be32 sb.length ++ be32 iss.length) ++ (sb ++ iss)).drop 16 := by
            simp [List.append_assoc]
        _ = sb ++ iss := List.drop_left' this
    have hserSlice : (buf.drop 16).take sb.length = sb := by
      rw [hdrop16]
      exact List.take_left' rfl
    have hissSlice : (buf.drop (16 + sb.length)).take iss.length = iss := by
      have hpre : (([0, 0, 0, 0, 0, 0, 0, 0] ++ be32 sb.length ++ be32 iss.length) ++ sb).length =
          16 + sb.length := by
        simp [be32, beBytes_length]
        omega
      have : buf.drop (16 + sb.length) = iss := by
        rw [hbufdef]
        calc ([0, 0, 0, 0, 0, 0, 0, 0] ++ be32 sb.length ++ be32 iss.length ++ sb ++ iss).drop
              (16 + sb.length)
            = ((([0, 0, 0, 0, 0, 0, 0, 0] ++ be32 sb.length ++ be32 iss.length) ++ sb) ++ iss).drop
              (16 + sb.length) := by simp [List.append_assoc]
          _ = iss := List.drop_left' hpre
      rw [this, List.take_length]
    rw [hserSlice, hissSlice]
    have hbe : beNat sb = sn := by
      rw [hsbdef, beNat_dropWhile_zero, beNat_beBytes 20 sn hser]
    rw [hbe]

/-! ## The entry-level encode/decode round trip -/

theorem strB_key_lit :
    strB ",,^partitionKey=%28" = 44 :: 44 :: (strB "^partitionKey=" ++ [37, 50, 56]) := by
  decide

theorem strB_pk14_no37 : ∀ c ∈ strB "^partitionKey=", c ≠ 37 := by decide

theorem tld_domChar (host : List Nat) (hh : ∀ c ∈ host, domChar c = true) :
    ∀ c ∈ tldOf host, domChar c = true := by
  intro c hc
  rcases tldOf_mem host c hc with h | h
  · exact hh c h
  · subst h; decide

theorem roundtrip_core (host scheme pp : List Nat) (cert : Option ClientCert)
    (portG : Option (List Nat)) (days : Nat)
    (hh : ∀ c ∈ host, domChar c = true)
    (hcert : ∀ cc, cert = some cc → cc.serial_number < 256 ^ 20 ∧
      cc.issuer.length < 2 ^ 32 ∧ ∀ b ∈ cc.issuer, b < 256)
    (cr : List Nat) (hcr : certRegionOf cert = some cr)
    (hktlen : (host ++ strB ",,^partitionKey=%28" ++ scheme ++ strB "%2C" ++ tldOf host ++
      pp ++ strB "%29").length ≤ 256)
    (hsearch : ∀ junk : List Nat,
      reSearch (strB "^partitionKey=" ++ 37 :: 50 :: 56 :: (scheme ++ 37 :: 50 :: 67 ::
        (tldOf host ++ (pp ++ 37 :: 50 :: 57 :: junk)))) = some (scheme, tldOf host, portG)) :
    ClientAuthRememberListEntry.from_bytes
      (padTo ENTRY_LENGTH (padTo KEY_LENGTH (host ++ strB ",,^partitionKey=%28" ++ scheme ++
        strB "%2C" ++ tldOf host ++ pp ++ strB "%29") ++ cr)) days =
      some (ClientAuthRememberListEntry.make host cert (portG.map PortV.bytes) scheme days) := by
  have hhA : ∀ c ∈ host, c < 128 := fun c hc => domChar_lt c (hh c hc)
  have h44 : 44 ∉ host := fun hx => absurd rfl (domChar_ne_44 44 (hh 44 hx))
  set kt : List Nat := host ++ strB ",,^partitionKey=%28" ++ scheme ++ strB "%2C" ++
    tldOf host ++ pp ++ strB "%29" with hktdef
  set record : List Nat := padTo ENTRY_LENGTH (padTo KEY_LENGTH kt ++ cr) with hrec
  have hklen : (padTo KEY_LENGTH kt).length = KEY_LENGTH := by
    rw [padTo_length]
    show max 256 kt.length = 256
    omega
  have hrsplit : record = padTo KEY_LENGTH kt ++
      (cr ++ List.replicate (ENTRY_LENGTH - (padTo KEY_LENGTH kt ++ cr).length) 0) := by
    rw [hrec, padTo_eq_append, List.append_assoc]
  set padE : List Nat := List.replicate (ENTRY_LENGTH - (padTo KEY_LENGTH kt ++ cr).length) 0
    with hpadE
  set junkA : List Nat := List.replicate (KEY_LENGTH - kt.length) 0 ++ (cr ++ padE) with hjunkA
  have hrform : record = host ++ 44 :: 44 :: (strB "^partitionKey=" ++ 37 :: 50 :: 56 ::
      (scheme ++ 37 :: 50 :: 67 :: (tldOf host ++ (pp ++ 37 :: 50 :: 57 :: junkA)))) := by
    rw [hrsplit, padTo_eq_append, hjunkA, hktdef]
    simp only [strB_key_lit, strB_pct2C, strB_pct29, List.append_assoc, List.cons_append,
      List.nil_append]
  have hsplitEq : pySplit2 record = some (host, strB "^partitionKey=" ++ 37 :: 50 :: 56 ::
      (scheme ++ 37 :: 50 :: 67 :: (tldOf host ++ (pp ++ 37 :: 50 :: 57 :: junkA)))) := by
    rw [hrform]
    exact pySplit2_append host _ h44
  have hutf8 : utf8Decode host = some host := utf8Decode_ascii host hhA
  have hre := hsearch junkA
  have hdropkey : record.drop KEY_LENGTH = cr ++ padE := by
    rw [hrsplit]
    exact List.drop_left' hklen
  have hcertOf : certOf (rstrip0 (record.drop KEY_LENGTH)) = some cert := by
    rw [hdropkey, hpadE]
    exact certOf_certRegion cert cr _ hcr hcert
  simp only [ClientAuthRememberListEntry.from_bytes, hsplitEq, hutf8, hre, hcertOf]

theorem search_noPort (scheme tld : List Nat)
    (hs0 : scheme ≠ []) (hs : ∀ c ∈ scheme, wordChar c = true)
    (ht0 : tld ≠ []) (ht : ∀ c ∈ tld, domChar c = true) :
    ∀ junk : List Nat,
      reSearch (strB "^partitionKey=" ++ 37 :: 50 :: 56 :: (scheme ++ 37 :: 50 :: 67 ::
        (tld ++ ([] ++ 37 :: 50 :: 57 :: junk)))) = some (scheme, tld, none) := by
  intro junk
  simp only [List.nil_append]
  rw [reSearch_append_no37 _ _ strB_pk14_no37, reSearch,
    matchAt_keyNoPort scheme tld junk hs0 hs ht0 ht]

theorem search_port (scheme tld ds : List Nat)
    (hs0 : scheme ≠ []) (hs : ∀ c ∈ scheme, wordChar c = true)
    (ht0 : tld ≠ []) (ht : ∀ c ∈ tld, domChar c = true)
    (hd0 : ds ≠ []) (hd : ∀ c ∈ ds, digitChar c = true) :
    ∀ junk : List Nat,
      reSearch (strB "^partitionKey=" ++ 37 :: 50 :: 56 :: (scheme ++ 37 :: 50 :: 67 ::
        (tld ++ ((strB "%2C" ++ ds) ++ 37 :: 50 :: 57 :: junk)))) =
      some (scheme, tld, some (strB "%2C" ++ ds)) := by
  intro junk
  have h1 : (strB "%2C" ++ ds) ++ 37 :: 50 :: 57 :: junk =
      37 :: 50 :: 67 :: (ds ++ 37 :: 50 :: 57 :: junk) := by
    rw [strB_pct2C]
    simp
  rw [h1, reSearch_append_no37 _ _ strB_pk14_no37, reSearch,
    matchAt_keyPort scheme tld ds junk hs0 hs ht0 ht hd0 hd]

/-- Round trip for a well-formed constructed entry: encoding succeeds, and
decoding the record reproduces host, scheme, derived tld, the certificate
(serial number and issuer bytes) and the day count exactly; an absent port
comes back absent, while a present port comes back as the raw bytes matched
by the pattern group, `%2C` followed by the decimal digits. -/
theorem entry_roundtrip (host scheme : List Nat) (cert : Option ClientCert)
    (port : Option Nat) (days : Nat)
    (hh0 : host ≠ []) (hh : ∀ c ∈ host, domChar c = true)
    (hs0 : scheme ≠ []) (hs : ∀ c ∈ scheme, wordChar c = true)
    (hcert : ∀ cc, cert = some cc → cc.serial_number < 256 ^ 20 ∧
      cc.issuer.length < 2 ^ 32 ∧ ∀ b ∈ cc.issuer, b < 256)
    (hkey : (keyTextOf (ClientAuthRememberListEntry.make host cert (port.map PortV.int)
      scheme days)).length ≤ KEY_LENGTH) :
    ∃ r, (ClientAuthRememberListEntry.make host cert (port.map PortV.int)
        scheme days).to_bytes = some r ∧
      ClientAuthRememberListEntry.from_bytes r days =
        some (ClientAuthRememberListEntry.make host cert
          (port.map fun n => PortV.bytes (strB "%2C" ++ natDec n)) scheme days) := by
  have hhA : ∀ c ∈ host, c < 128 := fun c hc => domChar_lt c (hh c hc)
  have hsA : ∀ c ∈ scheme, c < 128 := fun c hc => wordChar_lt c (hs c hc)
  have htld := tld_domChar host hh
  have htld0 := tldOf_ne_nil host hh0
  have htA : ∀ c ∈ tldOf host, c < 128 := fun c hc => domChar_lt c (htld c hc)
  obtain ⟨cr, hcr⟩ : ∃ cr, certRegionOf cert = some cr := by
    cases cert with
    | none => exact ⟨_, rfl⟩
    | some cc =>
      obtain ⟨h1, h2, _⟩ := hcert cc rfl
      exact ⟨_, certRegionOf_some cc h1 h2⟩
  cases port with
  | none =>
    refine ⟨_, to_bytes_eq _ [] cr hhA hsA htA rfl hcr, ?_⟩
    exact roundtrip_core host scheme [] cert none days hh hcert cr hcr hkey
      (search_noPort scheme (tldOf host) hs0 hs htld0 htld)
  | some n =>
    refine ⟨_, to_bytes_eq _ (strB "%2C" ++ natDec n) cr hhA hsA htA (portPartOf_int n) hcr, ?_⟩
    exact roundtrip_core host scheme (strB "%2C" ++ natDec n) cert
      (some (strB "%2C" ++ natDec n)) days hh hcert cr hcr hkey
      (search_port scheme (tldOf host) (natDec n) hs0 hs htld0 htld (natDec_ne_nil n)
        (digitChar_mem_natDec n))

/-! ## Supporting lemmas: list-level codec -/

theorem encodeAscii_bytes (l m : List Nat) (h : encodeAscii l = some m) :
    ∀ c ∈ m, c < 128 := by
  rw [encodeAscii] at h
  split at h
  · rename_i hall
    simp only [Option.some.injEq] at h
    subst h
    intro c hc
    rw [List.all_eq_true] at hall
    simpa using hall c hc
  · exact absurd h (by simp)

theorem portPartOf_bytes (p : Option PortV) (pp : List Nat) (h : portPartOf p = some pp) :
    ∀ c ∈ pp, c < 256 := by
  cases p with
  | none =>
    rw [portPartOf] at h
    simp only [Option.some.injEq] at h
    subst h
    simp
  | some pv =>
    rw [portPartOf] at h
    split at h
    · rename_i pb hpb
      simp only [Option.some.injEq] at h
      subst h
      intro c hc
      rcases List.mem_append.mp hc with hc | hc
      · have : c ∈ strB "%2C" := hc
        rw [strB_pct2C] at this
        simp at this
        omega
      · have := encodeAscii_bytes _ _ hpb c hc
        omega
    · exact absurd h (by simp)

theorem certRegionOf_bytes (c : Option ClientCert) (cr : List Nat)
    (h : certRegionOf c = some cr) : ∀ b ∈ cr, b < 256 := by
  cases c with
  | none =>
    rw [certRegionOf] at h
    simp only [Option.some.injEq] at h
    subst h
    decide
  | some cc =>
    rw [certRegionOf] at h
    split at h
    · exact absurd h (by simp)
    · rename_i sb hsb
      split at h
      · simp only [Option.some.injEq] at h
        subst h
        intro b hb
        have := b64encode_mem_range _ b hb
        omega
      · exact absurd h (by simp)

theorem padTo_bytes (n : Nat) (l : List Nat) (h : ∀ b ∈ l, b < 256) :
    ∀ b ∈ padTo n l, b < 256 := by
  intro b hb
  rw [padTo] at hb
  rcases List.mem_append.mp hb with hb | hb
  · exact h b hb
  · have := List.eq_of_mem_replicate hb
    omega

theorem to_bytes_bytes (e : ClientAuthRememberListEntry) (r : List Nat)
    (h : e.to_bytes = some r) : ∀ b ∈ r, b < 256 := by
  rw [ClientAuthRememberListEntry.to_bytes] at h
  split at h
  · rename_i hostB schemeB tldB hhost hscheme htld
    split at h
    · exact absurd h (by simp)
    · rename_i pp hpp
      split at h
      · exact absurd h (by simp)
      · rename_i cr hcr
        simp only [Option.some.injEq] at h
        subst h
        apply padTo_bytes
        intro b hb
        rcases List.mem_append.mp hb with hb | hb
        · refine padTo_bytes _ _ ?_ b hb
          intro c hc
          simp only [List.append_assoc, List.mem_append] at hc
          rcases hc with hc | hc | hc | hc | hc | hc | hc
          · have := encodeAscii_bytes _ _ hhost c hc; omega
          · have : c ∈ strB ",,^partitionKey=%28" := hc
            revert this c
            decide
          · have := encodeAscii_bytes _ _ hscheme c hc; omega
          · have : c ∈ strB "%2C" := hc
            revert this c
            decide
          · have := encodeAscii_bytes _ _ htld c hc; omega
          · exact portPartOf_bytes _ _ hpp c hc
          · have : c ∈ strB "%29" := hc
            revert this c
            decide
        · exact certRegionOf_bytes _ _ hcr b hb
  · exact absurd h (by simp)

theorem be16_cons2 (n : Nat) : be16 n = [n / 256 % 256, n % 256] := by
  simp [be16, beBytes]

theorem be16_length (n : Nat) : (be16 n).length = 2 := beBytes_length 2 n

theorem slot_bytes_form (e : ClientAuthRememberListEntry) (s : List Nat)
    (h : slot_bytes e = some s) :
    ∃ eb ck, e.to_bytes = some eb ∧ foldWords (1 ^^^ e.last_modified_days) eb = some ck ∧
      e.last_modified_days < 65536 ∧ ck < 65536 ∧
      s = be16 ck ++ be16 1 ++ be16 e.last_modified_days ++ eb := by
  rw [slot_bytes] at h
  split at h
  · rename_i hdays
    split at h
    · exact absurd h (by simp)
    · rename_i eb heb
      split at h
      · exact absurd h (by simp)
      · rename_i ck hck
        simp only [Option.some.injEq] at h
        have hlt : ck < 65536 := by
          refine foldWords_lt _ eb ck (to_bytes_bytes e eb heb) ?_ hck
          have := @Nat.xor_lt_two_pow 1 e.last_modified_days 16 (by omega) (by omega)
          omega
        exact ⟨eb, ck, heb, hck, hdays, hlt, h.symm⟩
  · exact absurd h (by simp)

theorem readBE16_append_be16 (n : Nat) (l : List Nat) (h : n < 65536) :
    readBE16 (be16 n ++ l) 0 = n := by
  rw [be16_cons2, List.cons_append, List.cons_append, readBE16_cons2]
  omega

theorem from_bytes_days (data : List Nat) (days : Nat) (e : ClientAuthRememberListEntry)
    (h : ClientAuthRememberListEntry.from_bytes data days = some e) :
    e.last_modified_days = days := by
  rw [ClientAuthRememberListEntry.from_bytes] at h
  split at h
  · exact absurd h (by simp)
  · split at h
    · exact absurd h (by simp)
    · split at h
      · exact absurd h (by simp)
      · split at h
        · exact absurd h (by simp)
        · simp only [Option.some.injEq] at h
          subst h
          rfl

theorem decodeSlot_days (slice : List Nat) (e : ClientAuthRememberListEntry)
    (h : decodeSlot slice = some e) : e.last_modified_days = readBE16 slice 4 := by
  rw [decodeSlot] at h
  split at h
  · exact absurd h (by simp)
  · exact from_bytes_days _ _ _ h

theorem fromSlices_spec (sl : List (List Nat)) (al bl : List ClientAuthRememberListEntry) :
    fromSlices sl ⟨al, bl⟩ =
      ⟨al ++ (sl.filterMap decodeSlot).filter (fun e => e.cert.isSome),
        bl ++ (sl.filterMap decodeSlot).filter (fun e => e.cert.isNone)⟩ := by
  induction sl generalizing al bl with
  | nil => simp [fromSlices]
  | cons s rest ih =>
    rw [fromSlices]
    rcases hds : decodeSlot s with _ | e
    · show fromSlices rest ⟨al, bl⟩ = _
      rw [ih al bl]
      simp [List.filterMap_cons, hds]
    · show fromSlices rest (ClientAuthRememberList.add_entry ⟨al, bl⟩ e) = _
      rcases hc : e.cert with _ | cc
      · have hadd : ClientAuthRememberList.add_entry ⟨al, bl⟩ e = ⟨al, bl ++ [e]⟩ := by
          rw [ClientAuthRememberList.add_entry, hc]
        rw [hadd, ih al (bl ++ [e])]
        simp [List.filterMap_cons, hds, List.filter_cons, hc]
      · have hadd : ClientAuthRememberList.add_entry ⟨al, bl⟩ e = ⟨al ++ [e], bl⟩ := by
          rw [ClientAuthRememberList.add_entry, hc]
        rw [hadd, ih (al ++ [e]) bl]
        simp [List.filterMap_cons, hds, List.filter_cons, hc]

/-! ## Supporting lemmas: the stored checksum is never read back -/

theorem getD_drop_add (s : List Nat) (m j : Nat) : s.getD (m + j) 0 = (s.drop m).getD j 0 := by
  rw [List.getD_eq_getElem?_getD, List.getD_eq_getElem?_getD, List.getElem?_drop]

theorem decodeSlot_congr (s₁ s₂ : List Nat) (hlen : s₁.length = s₂.length)
    (hdrop : s₁.drop 2 = s₂.drop 2) : decodeSlot s₁ = decodeSlot s₂ := by
  have h4 : readBE16 s₁ 4 = readBE16 s₂ 4 := by
    rw [readBE16, readBE16, show (4 : Nat) = 2 + 2 from rfl, show (2 + 2 + 1 : Nat) = 2 + 3 from rfl,
      getD_drop_add s₁ 2 2, getD_drop_add s₁ 2 3, getD_drop_add s₂ 2 2, getD_drop_add s₂ 2 3,
      hdrop]
  have h6 : s₁.drop 6 = s₂.drop 6 := by
    rw [show (6 : Nat) = 2 + 4 from rfl, ← List.drop_drop, ← List.drop_drop, hdrop]
  rw [decodeSlot, decodeSlot, hlen, h4, h6]

theorem sliceAt_set_other (data : List Nat) (i k x y : Nat) (hk : k ≠ i) :
    sliceAt ((data.set ((ENTRY_LENGTH + 6) * i) x).set ((ENTRY_LENGTH + 6) * i + 1) y) k =
      sliceAt data k := by
  apply List.ext_getElem?
  intro j
  rw [sliceAt, sliceAt, List.getElem?_take, List.getElem?_take]
  split
  · rename_i hj
    rw [List.getElem?_drop, List.getElem?_drop, List.getElem?_set, List.getElem?_set]
    rw [if_neg (by show ¬((ENTRY_LENGTH + 6) * i + 1 = (ENTRY_LENGTH + 6) * k + j); simp only [ENTRY_LENGTH] at *; omega),
      if_neg (by show ¬((ENTRY_LENGTH + 6) * i = (ENTRY_LENGTH + 6) * k + j); simp only [ENTRY_LENGTH] at *; omega)]
  · rfl

theorem sliceAt_set_self (data : List Nat) (i x y : Nat) :
    (sliceAt ((data.set ((ENTRY_LENGTH + 6) * i) x).set ((ENTRY_LENGTH + 6) * i + 1) y) i).length =
      (sliceAt data i).length ∧
    (sliceAt ((data.set ((ENTRY_LENGTH + 6) * i) x).set ((ENTRY_LENGTH + 6) * i + 1) y) i).drop 2 =
      (sliceAt data i).drop 2 := by
  constructor
  · rw [sliceAt, sliceAt]
    simp [List.length_set]
  · apply List.ext_getElem?
    intro j
    rw [List.getElem?_drop, List.getElem?_drop, sliceAt, sliceAt,
      List.getElem?_take, List.getElem?_take]
    split
    · rw [List.getElem?_drop, List.getElem?_drop, List.getElem?_set, List.getElem?_set]
      rw [if_neg (by simp only [ENTRY_LENGTH]; omega), if_neg (by simp only [ENTRY_LENGTH]; omega)]
    · rfl

theorem fromSlices_map_congr (sl₁ : List (List Nat)) :
    ∀ (sl₂ : List (List Nat)) (acc : ClientAuthRememberList),
      sl₁.map decodeSlot = sl₂.map decodeSlot → fromSlices sl₁ acc = fromSlices sl₂ acc := by
  induction sl₁ with
  | nil =>
    intro sl₂ acc h
    cases sl₂ with
    | nil => rfl
    | cons s t => simp at h
  | cons s rest ih =>
    intro sl₂ acc h
    cases sl₂ with
    | nil => simp at h
    | cons s₂ rest₂ =>
      simp only [List.map_cons, List.cons.injEq] at h
      rw [fromSlices, fromSlices, h.1]
      cases hds : decodeSlot s₂ with
      | none =>
        show fromSlices rest acc = fromSlices rest₂ acc
        exact ih rest₂ acc h.2
      | some e =>
        show fromSlices rest (acc.add_entry e) = fromSlices rest₂ (acc.add_entry e)
        exact ih rest₂ _ h.2

theorem pySplit2_no44 (l : List Nat) (h : 44 ∉ l) : pySplit2 l = none := by
  induction l with
  | nil => rfl
  | cons c t ih =>
    cases t with
    | nil => rfl
    | cons c2 t2 =>
      rw [pySplit2_cons2, if_neg (by simp; intro hc; exact absurd (by simp [hc]) h),
        ih (fun hx => h (by simp [hx]))]
      rfl

theorem from_bytes_none_of_split (data : List Nat) (days : Nat)
    (h : pySplit2 data = none) : ClientAuthRememberListEntry.from_bytes data days = none := by
  rw [ClientAuthRememberListEntry.from_bytes, h]

theorem decodeSlot_zeros : decodeSlot (List.replicate 1286 0) = none := by
  rw [decodeSlot, if_neg (by rw [List.length_replicate]; omega)]
  apply from_bytes_none_of_split
  apply pySplit2_no44
  intro h
  have := List.eq_of_mem_replicate (List.mem_of_mem_drop h)
  omega

/-! ## Claim C4 -/

/-- C4: decoding a zero-length input returns an empty list without error, and
for every non-empty input whose byte length is not a multiple of the
1286-byte record stride, decoding fails with the fatal length-mismatch error
before any record is decoded. -/
theorem claim_C4_length_gate :
    ClientAuthRememberList.from_file [] = .ok ⟨[], []⟩ ∧
    ∀ data : List Nat, data ≠ [] → data.length % 1286 ≠ 0 →
      ClientAuthRememberList.from_file data = .error (.lengthMismatch data.length) := by
  constructor
  · rfl
  · intro data h0 hm
    rw [ClientAuthRememberList.from_file,
      if_neg (fun hz => h0 (List.eq_nil_of_length_eq_zero hz)),
      if_pos (show data.length % (ENTRY_LENGTH + 6) ≠ 0 from hm)]

/-- Witness for C4 at the one-byte input. -/
theorem claim_C4_length_gate_witness :
    ClientAuthRememberList.from_file [0] = .error (.lengthMismatch 1) := by
  have h := claim_C4_length_gate.2 [0] (by decide) (by decide)
  simpa using h

/-! ## Claim C5 -/

/-- C5: on any input whose length is a multiple of the record stride, decoding
never raises: it returns, in order, exactly the entries of the slices whose
individual decode succeeds (failing slices are skipped), partitioned into the
allowed and blocked sequences by certificate presence. -/
theorem claim_C5_skip_bad_records :
    ∀ data : List Nat, data.length % 1286 = 0 →
      ClientAuthRememberList.from_file data = .ok
        ⟨(((List.range (data.length / 1286)).map (sliceAt data)).filterMap decodeSlot).filter
            (fun e => e.cert.isSome),
          (((List.range (data.length / 1286)).map (sliceAt data)).filterMap decodeSlot).filter
            (fun e => e.cert.isNone)⟩ := by
  intro data h
  by_cases h0 : data.length = 0
  · rw [ClientAuthRememberList.from_file, if_pos h0, h0]
    simp only [Nat.zero_div, List.range_zero, List.map_nil, List.filterMap_nil, List.filter_nil]
  · rw [ClientAuthRememberList.from_file, if_neg h0,
      if_neg (show ¬data.length % (ENTRY_LENGTH + 6) ≠ 0 from not_not_intro h)]
    rw [fromSlices_spec]
    simp only [List.nil_append, show (ENTRY_LENGTH + 6 : Nat) = 1286 from rfl]

/-- Witness for C5 at a single all-zero record (an undecodable slice: the
record is skipped and the decode still succeeds with an empty list). -/
theorem claim_C5_skip_bad_records_witness :
    ClientAuthRememberList.from_file (List.replicate 1286 0) = .ok ⟨[], []⟩ := by
  have h := claim_C5_skip_bad_records (List.replicate 1286 0)
    (by rw [List.length_replicate, Nat.mod_self])
  rw [h]
  have h1 : (List.replicate 1286 (0 : Nat)).length / 1286 = 1 := by
    rw [List.length_replicate]
  have hsl : sliceAt (List.replicate 1286 0) 0 = List.replicate 1286 0 := by
    rw [sliceAt, Nat.mul_zero, List.drop_zero, List.take_replicate]
    rfl
  rw [h1, show List.range 1 = [0] from rfl, List.map_cons, List.map_nil, hsl]
  rw [show List.filterMap decodeSlot [List.replicate 1286 0] =
    List.filterMap decodeSlot [] from by rw [List.filterMap_cons, decodeSlot_zeros]]
  rfl

/-! ## Claim C9 -/

/-- C9: decoding never validates the stored checksum: overwriting the two
checksum bytes of any record (the bytes at offsets `1286*i` and `1286*i+1`)
with any values leaves the decode result of the file unchanged. -/
theorem claim_C9_checksum_never_checked :
    ∀ (data : List Nat) (i hi lo : Nat),
      ClientAuthRememberList.from_file ((data.set (1286 * i) hi).set (1286 * i + 1) lo) =
        ClientAuthRememberList.from_file data := by
  intro data i hi lo
  rw [show (1286 : Nat) = ENTRY_LENGTH + 6 from rfl]
  have hlen : ((data.set ((ENTRY_LENGTH + 6) * i) hi).set ((ENTRY_LENGTH + 6) * i + 1) lo).length =
      data.length := by
    simp [List.length_set]
  rw [ClientAuthRememberList.from_file, ClientAuthRememberList.from_file, hlen]
  by_cases h0 : data.length = 0
  · rw [if_pos h0, if_pos h0]
  · rw [if_neg h0, if_neg h0]
    by_cases hmod : data.length % (ENTRY_LENGTH + 6) ≠ 0
    · rw [if_pos hmod, if_pos hmod]
    · rw [if_neg hmod, if_neg hmod]
      congr 1
      apply fromSlices_map_congr
      rw [List.map_map, List.map_map]
      apply List.map_congr_left
      intro k hk
      simp only [Function.comp_apply]
      by_cases hki : k = i
      · subst hki
        exact decodeSlot_congr _ _ (sliceAt_set_self data k hi lo).1
          (sliceAt_set_self data k hi lo).2
      · rw [sliceAt_set_other data i k hi lo hki]

/-! ## Claim C10 -/

/-- C10: `remove_entry` accepts negative positions: a negative position that
does not index past the start of the allowed sequence deletes from the end of
the allowed sequence (`-1` removes its last entry), and an out-of-range error
occurs exactly when the position is at least the total entry count or a
negative position indexes past the start of the allowed sequence. -/
theorem claim_C10_negative_remove :
    ∀ (al bl : List ClientAuthRememberListEntry) (pos : Int),
      (ClientAuthRememberList.remove_entry ⟨al, bl⟩ pos = none ↔
        ((al.length : Int) + bl.length ≤ pos ∨ pos < -(al.length : Int))) ∧
      (pos < 0 → -(al.length : Int) ≤ pos →
        ClientAuthRememberList.remove_entry ⟨al, bl⟩ pos =
          some ⟨al.eraseIdx ((al.length : Int) + pos).toNat, bl⟩) := by
  intro al bl pos
  rw [ClientAuthRememberList.remove_entry]
  simp only [show (ClientAuthRememberList.mk al bl).entries_allowed = al from rfl,
    show (ClientAuthRememberList.mk al bl).entries_blocked = bl from rfl, pyDel]
  by_cases h1 : pos < (al.length : Int)
  · rw [if_pos h1]
    by_cases hneg : pos < 0
    · rw [if_pos hneg]
      by_cases hge : -(al.length : Int) ≤ pos
      · rw [if_pos (show 0 ≤ pos + (al.length : Int) ∧ pos + (al.length : Int) <
          (al.length : Int) from by constructor <;> omega)]
        constructor
        · simp only [Option.map_some']
          constructor
          · intro hx
            exact absurd hx (by simp)
          · intro hx
            exfalso
            omega
        · intro _ _
          simp only [Option.map_some', Option.some.injEq]
          rw [show (pos + (al.length : Int)).toNat = ((al.length : Int) + pos).toNat from by omega]
      · rw [if_neg (show ¬(0 ≤ pos + (al.length : Int) ∧ pos + (al.length : Int) <
          (al.length : Int)) from by intro hx; omega)]
        constructor
        · simp only [Option.map_none']
          constructor
          · intro _
            right
            omega
          · intro _
            trivial
        · intro _ hge2
          exact absurd hge2 hge
    · rw [if_neg hneg]
      rw [if_pos (show 0 ≤ pos ∧ pos < (al.length : Int) from ⟨by omega, h1⟩)]
      constructor
      · simp only [Option.map_some']
        constructor
        · intro hx
          exact absurd hx (by simp)
        · intro hx
          exfalso
          omega
      · intro hx _
        exact absurd hx hneg
  · rw [if_neg h1]
    have hpos : 0 ≤ pos := by omega
    rw [if_neg (show ¬pos - (al.length : Int) < 0 from by omega)]
    by_cases h2 : pos - (al.length : Int) < (bl.length : Int)
    · rw [if_pos (show 0 ≤ pos - (al.length : Int) ∧ pos - (al.length : Int) <
        (bl.length : Int) from ⟨by omega, h2⟩)]
      constructor
      · simp only [Option.map_some']
        constructor
        · intro hx
          exact absurd hx (by simp)
        · intro hx
          exfalso
          omega
      · intro hx _
        omega
    · rw [if_neg (show ¬(0 ≤ pos - (al.length : Int) ∧ pos - (al.length : Int) <
        (bl.length : Int)) from by intro hx; omega)]
      constructor
      · simp only [Option.map_none']
        constructor
        · intro _
          left
          omega
        · intro _
          trivial
      · intro hx _
        omega

/-- Witness for C10: removing position `-1` from a one-entry allowed list. -/
theorem claim_C10_negative_remove_witness :
    ClientAuthRememberList.remove_entry
      ⟨[ClientAuthRememberListEntry.make (strB "a") (some ⟨1, [2]⟩) none (strB "https") 0], []⟩
      (-1) =
    some ⟨[], []⟩ := by
  have h := (claim_C10_negative_remove
    [ClientAuthRememberListEntry.make (strB "a") (some ⟨1, [2]⟩) none (strB "https") 0] []
    (-1)).2 (by decide) (by decide)
  rw [h]
  rfl

/-! ## Claims C2 and C3: the slot header -/

theorem slot_bytes_of (e : ClientAuthRememberListEntry) (eb : List Nat) (ck : Nat)
    (hto : e.to_bytes = some eb) (hck : foldWords (1 ^^^ e.last_modified_days) eb = some ck)
    (hdays : e.last_modified_days < 65536) :
    slot_bytes e = some (be16 ck ++ be16 1 ++ be16 e.last_modified_days ++ eb) := by
  rw [slot_bytes, if_pos hdays, hto]
  show (match foldWords (1 ^^^ e.last_modified_days) eb with
    | none => none
    | some ck => some (be16 ck ++ be16 1 ++ be16 e.last_modified_days ++ eb)) = _
  rw [hck]

/-- The example.com entry record of a given age: encoding succeeds, the entry
bytes are 1280 long, the checksum fold succeeds, and the slot has the
checksum, the constant 1, the day count and the entry bytes in order. -/
theorem concrete_slot_example (days : Nat) (hdays : days < 65536) :
    ∃ eb ck,
      (ClientAuthRememberListEntry.make (strB "example.com") none none (strB "https")
        days).to_bytes = some eb ∧
      eb.length = 1280 ∧
      foldWords (1 ^^^ days) eb = some ck ∧
      slot_bytes (ClientAuthRememberListEntry.make (strB "example.com") none none (strB "https")
        days) = some (be16 ck ++ be16 1 ++ be16 days ++ eb) := by
  have h2b : (ClientAuthRememberListEntry.make (strB "example.com") none none (strB "https")
      days).to_bytes = some (padTo ENTRY_LENGTH (padTo KEY_LENGTH
        (strB "example.com" ++ strB ",,^partitionKey=%28" ++ strB "https" ++ strB "%2C" ++
          tldOf (strB "example.com") ++ [] ++ strB "%29") ++ strB "no client certificate")) :=
    to_bytes_eq _ [] (strB "no client certificate")
      (show ∀ c ∈ strB "example.com", c < 128 from by decide)
      (show ∀ c ∈ strB "https", c < 128 from by decide)
      (show ∀ c ∈ tldOf (strB "example.com"), c < 128 from by decide)
      rfl rfl
  have hlen : (padTo ENTRY_LENGTH (padTo KEY_LENGTH
      (strB "example.com" ++ strB ",,^partitionKey=%28" ++ strB "https" ++ strB "%2C" ++
        tldOf (strB "example.com") ++ [] ++ strB "%29") ++
      strB "no client certificate")).length = 1280 := by
    rw [padTo_length, List.length_append, padTo_length]
    have h52 : (strB "example.com" ++ strB ",,^partitionKey=%28" ++ strB "https" ++
      strB "%2C" ++ tldOf (strB "example.com") ++ [] ++ strB "%29").length = 52 := by decide
    rw [h52]
    decide
  obtain ⟨ck, hck⟩ := Option.isSome_iff_exists.mp
    (foldWords_isSome_of_even (1 ^^^ days) _ (by rw [hlen]))
  exact ⟨_, ck, h2b, hlen, hck, slot_bytes_of _ _ ck h2b hck hdays⟩

def c2Entry : ClientAuthRememberListEntry :=
  ClientAuthRememberListEntry.make (strB "example.com") none none (strB "https") 1

/-- C2 (amended): the 2-byte checksum stored at the front of an encoded slot
equals the XOR-fold of sequential 2-byte big-endian words with seed
`1 XOR lastModifiedDays`, taken over the key and certificate regions (the
entry bytes); the 2-byte day field itself is folded into the seed, not the
payload. -/
theorem claim_C2_checksum_seed (e : ClientAuthRememberListEntry) (eb s : List Nat)
    (hto : e.to_bytes = some eb) (hslot : slot_bytes e = some s) :
    foldWords (1 ^^^ e.last_modified_days) eb = some (readBE16 s 0) := by
  obtain ⟨eb', ck, hto', hck, hdays, hcklt, hs⟩ := slot_bytes_form e s hslot
  have heb : eb' = eb := by
    rw [hto] at hto'
    exact (Option.some.injEq _ _).mp hto'.symm
  subst heb
  rw [hs, List.append_assoc, List.append_assoc, readBE16_append_be16 ck _ hcklt, hck]

/-- Witness for C2 (amended) at the example.com entry with day count 1. -/
theorem claim_C2_checksum_seed_witness :
    ∃ eb s, c2Entry.to_bytes = some eb ∧ slot_bytes c2Entry = some s ∧
      foldWords (1 ^^^ c2Entry.last_modified_days) eb = some (readBE16 s 0) := by
  obtain ⟨eb, ck, hto, _, hck, hslot⟩ := concrete_slot_example 1 (by omega)
  exact ⟨eb, _, hto, hslot, claim_C2_checksum_seed c2Entry eb _ hto hslot⟩

/-- Counterexample to C2 as stated: with day count 1, the stored checksum is
not the fold with seed `1 XOR days` over the payload made of the 2-byte day
field followed by the entry bytes (that double-counts the day field). -/
theorem claim_C2_checksum_seed_cx :
    ∃ eb s, c2Entry.to_bytes = some eb ∧ slot_bytes c2Entry = some s ∧
      foldWords (1 ^^^ c2Entry.last_modified_days)
        (be16 c2Entry.last_modified_days ++ eb) ≠ some (readBE16 s 0) := by
  obtain ⟨eb, ck, hto, _, hck, hslot⟩ := concrete_slot_example 1 (by omega)
  refine ⟨eb, _, hto, hslot, ?_⟩
  have hcklt : ck < 65536 :=
    foldWords_lt (1 ^^^ 1) eb ck (to_bytes_bytes _ eb hto) (by decide) hck
  have hre : readBE16 (be16 ck ++ be16 1 ++ be16 1 ++ eb) 0 = ck := by
    rw [List.append_assoc, List.append_assoc]
    exact readBE16_append_be16 ck _ hcklt
  rw [show c2Entry.last_modified_days = 1 from rfl, hre]
  rw [foldWords_be16 _ 1 eb (by omega)]
  rw [show ((1 : Nat) ^^^ 1 ^^^ 1) = 0 ^^^ 1 from by decide, foldWords_xor 0 eb 1]
  rw [show ((1 : Nat) ^^^ 1) = 0 from by decide] at hck
  rw [hck]
  simp only [Option.map_some', Option.some.injEq, ne_eq]
  intro h
  have h1 : (1 : Nat) = 0 := by
    calc (1 : Nat) = ck ^^^ (ck ^^^ 1) := by rw [← Nat.xor_assoc, Nat.xor_self, Nat.zero_xor]
      _ = ck ^^^ ck := by rw [h]
      _ = 0 := Nat.xor_self ck
  omega

theorem readBE16_at_drop (s : List Nat) (m : Nat) : readBE16 s m = readBE16 (s.drop m) 0 := by
  rw [readBE16, readBE16, ← getD_drop_add s m 0, ← getD_drop_add s m 1]
  simp

theorem slot_header_slices (ck d : Nat) (eb : List Nat) (hd : d < 65536) :
    ((be16 ck ++ be16 1 ++ be16 d ++ eb).drop 2).take 2 = be16 1 ∧
    ((be16 ck ++ be16 1 ++ be16 d ++ eb).drop 4).take 2 = be16 d ∧
    (be16 ck ++ be16 1 ++ be16 d ++ eb).drop 6 = eb ∧
    readBE16 (be16 ck ++ be16 1 ++ be16 d ++ eb) 4 = d := by
  have hA : be16 ck ++ be16 1 ++ be16 d ++ eb = be16 ck ++ (be16 1 ++ (be16 d ++ eb)) := by
    simp [List.append_assoc]
  have hB : be16 ck ++ be16 1 ++ be16 d ++ eb = (be16 ck ++ be16 1) ++ (be16 d ++ eb) := by
    simp [List.append_assoc]
  have hC : be16 ck ++ be16 1 ++ be16 d ++ eb = ((be16 ck ++ be16 1) ++ be16 d) ++ eb := by
    simp [List.append_assoc]
  have hd2 : (be16 ck ++ be16 1 ++ be16 d ++ eb).drop 2 = be16 1 ++ (be16 d ++ eb) := by
    rw [hA]
    exact List.drop_left' (be16_length ck)
  have hd4 : (be16 ck ++ be16 1 ++ be16 d ++ eb).drop 4 = be16 d ++ eb := by
    rw [hB]
    exact List.drop_left' (by rw [List.length_append, be16_length, be16_length])
  refine ⟨?_, ?_, ?_, ?_⟩
  · rw [hd2]
    exact List.take_left' (be16_length 1)
  · rw [hd4]
    exact List.take_left' (be16_length d)
  · rw [hC]
    exact List.drop_left' (by rw [List.length_append, List.length_append, be16_length,
      be16_length, be16_length])
  · rw [readBE16_at_drop _ 4, hd4, readBE16_append_be16 d eb hd]

def c3Entry : ClientAuthRememberListEntry :=
  ClientAuthRememberListEntry.make (strB "example.com") none none (strB "https") 5

/-- C3 (amended): in a serialized slot the 2-byte big-endian day count
occupies offsets 4..6, right after the 2-byte checksum and the constant
2-byte field 0x0001 at offsets 2..4, and list decoding reads the day count
of a slice from offsets 4..6. -/
theorem claim_C3_day_count_offsets :
    (∀ (e : ClientAuthRememberListEntry) (s : List Nat), slot_bytes e = some s →
      (s.drop 2).take 2 = be16 1 ∧ (s.drop 4).take 2 = be16 e.last_modified_days) ∧
    (∀ (slice : List Nat) (e' : ClientAuthRememberListEntry), decodeSlot slice = some e' →
      e'.last_modified_days = readBE16 slice 4) := by
  constructor
  · intro e s hs
    obtain ⟨eb, ck, _, _, hdays, _, hform⟩ := slot_bytes_form e s hs
    subst hform
    obtain ⟨h1, h2, _, _⟩ := slot_header_slices ck e.last_modified_days eb hdays
    exact ⟨h1, h2⟩
  · exact fun slice e' h => decodeSlot_days slice e' h

/-- Counterexample to C3 as stated: for the example.com entry last modified
at day 5, the two bytes at offsets 2..4 of its slot are not the big-endian
day count (they are the constant 0x0001). -/
theorem claim_C3_day_count_offsets_cx :
    ∃ s, slot_bytes c3Entry = some s ∧
      (s.drop 2).take 2 ≠ be16 c3Entry.last_modified_days := by
  obtain ⟨eb, ck, hto, hlen, hck, hslot⟩ := concrete_slot_example 5 (by omega)
  refine ⟨_, hslot, ?_⟩
  obtain ⟨h1, _, _, _⟩ := slot_header_slices ck 5 eb (by omega)
  rw [h1, show c3Entry.last_modified_days = 5 from rfl, be16_cons2, be16_cons2]
  decide

/-- Witness for C3 (amended): the example.com slot last modified at day 5,
including a successful slice decode that reads the day count from
offsets 4..6. -/
theorem claim_C3_day_count_offsets_witness :
    ∃ s e', slot_bytes c3Entry = some s ∧
      (s.drop 2).take 2 = be16 1 ∧ (s.drop 4).take 2 = be16 c3Entry.last_modified_days ∧
      decodeSlot s = some e' ∧ e'.last_modified_days = readBE16 s 4 := by
  obtain ⟨eb, ck, hto, hlen, hck, hslot⟩ := concrete_slot_example 5 (by omega)
  obtain ⟨hl1, hl2, hdrop6, hre4⟩ := slot_header_slices ck 5 eb (by omega)
  obtain ⟨r, hr, hdec⟩ := entry_roundtrip (strB "example.com") (strB "https") none none 5
    (by decide) (by decide) (by decide) (by decide)
    (fun cc hcc => absurd hcc (by simp))
    (by decide)
  simp only [Option.map_none'] at hr hdec
  have hreb : r = eb := by
    rw [hto] at hr
    exact (Option.some.injEq _ _).mp hr.symm
  subst hreb
  have hslice : decodeSlot (be16 ck ++ be16 1 ++ be16 5 ++ r) =
      some (ClientAuthRememberListEntry.make (strB "example.com") none none (strB "https") 5) := by
    rw [decodeSlot, if_neg (by
      rw [List.length_append, List.length_append, List.length_append, be16_length, be16_length,
        be16_length, hlen]
      omega)]
    rw [hdrop6, hre4]
    exact hdec
  refine ⟨_, _, hslot, (claim_C3_day_count_offsets.1 c3Entry _ hslot).1,
    (claim_C3_day_count_offsets.1 c3Entry _ hslot).2, hslice, ?_⟩
  exact claim_C3_day_count_offsets.2 _ _ hslice

/-! ## Claim C1 -/

/-- C1 (amended): for every well-formed entry (non-empty host of
partition-key-safe ASCII characters, non-empty word-character scheme, a
serial number of at most 20 bytes, key text fitting the 256-byte key region,
certificate descriptor fitting the certificate region), decoding the record
produced by encoding reproduces host, scheme, derived tld, day count and,
when present, the serial number and issuer bytes exactly; an absent port is
reproduced as absent, but a present port decodes to the raw matched group
text `%2C` followed by the decimal digits instead of the original integer. -/
theorem claim_C1_roundtrip (host scheme : List Nat) (cert : Option ClientCert)
    (port : Option Nat) (days : Nat)
    (hh0 : host ≠ []) (hh : ∀ c ∈ host, domChar c = true)
    (hs0 : scheme ≠ []) (hs : ∀ c ∈ scheme, wordChar c = true)
    (hcert : ∀ cc, cert = some cc → cc.serial_number < 256 ^ 20 ∧
      cc.issuer.length < 2 ^ 32 ∧ ∀ b ∈ cc.issuer, b < 256)
    (hkey : (keyTextOf (ClientAuthRememberListEntry.make host cert (port.map PortV.int)
      scheme days)).length ≤ KEY_LENGTH) :
    ∃ r, (ClientAuthRememberListEntry.make host cert (port.map PortV.int)
        scheme days).to_bytes = some r ∧
      ClientAuthRememberListEntry.from_bytes r days =
        some (ClientAuthRememberListEntry.make host cert
          (port.map fun n => PortV.bytes (strB "%2C" ++ natDec n)) scheme days) :=
  entry_roundtrip host scheme cert port days hh0 hh hs0 hs hcert hkey

/-- Witness for C1 (amended): a full certificate entry with a port. -/
theorem claim_C1_roundtrip_witness :
    ∃ r, (ClientAuthRememberListEntry.make (strB "example.com")
        (some ⟨65537, [48, 49, 50]⟩) (some (PortV.int 8080)) (strB "https") 7).to_bytes =
          some r ∧
      ClientAuthRememberListEntry.from_bytes r 7 =
        some (ClientAuthRememberListEntry.make (strB "example.com")
          (some ⟨65537, [48, 49, 50]⟩) (some (PortV.bytes (strB "%2C8080"))) (strB "https") 7) := by
  have h := claim_C1_roundtrip (strB "example.com") (strB "https") (some ⟨65537, [48, 49, 50]⟩)
    (some 8080) 7 (by decide) (by decide) (by decide) (by decide)
    (by
      intro cc hcc
      simp only [Option.some.injEq] at hcc
      subst hcc
      refine ⟨by decide, by decide, by decide⟩)
    (by decide)
  simp only [Option.map_some'] at h
  have hport : strB "%2C" ++ natDec 8080 = strB "%2C8080" := by decide
  rw [hport] at h
  exact h

def c1Entry : ClientAuthRememberListEntry :=
  ClientAuthRememberListEntry.make (strB "example.com") none (some (PortV.int 8080))
    (strB "https") 0

/-- Counterexample to C1 as stated: for the well-formed entry
`https://example.com:8080` (no certificate), the round trip does not
reproduce the port: the decoder stores the raw matched group bytes
`%2C8080`, not the integer 8080. -/
theorem claim_C1_roundtrip_cx :
    ∃ r, c1Entry.to_bytes = some r ∧
      (ClientAuthRememberListEntry.from_bytes r 0).map (fun e => e.port) =
        some (some (PortV.bytes (strB "%2C8080"))) ∧
      some (some (PortV.bytes (strB "%2C8080"))) ≠
        (some (some (PortV.int 8080)) : Option (Option PortV)) := by
  obtain ⟨r, hr, hdec⟩ := entry_roundtrip (strB "example.com") (strB "https") none
    (some 8080) 0 (by decide) (by decide) (by decide) (by decide)
    (fun cc hcc => absurd hcc (by simp)) (by decide)
  simp only [Option.map_some'] at hr hdec
  refine ⟨r, hr, ?_, by decide⟩
  rw [hdec]
  rw [show strB "%2C" ++ natDec 8080 = strB "%2C8080" from by decide]
  rfl

/-! ## Claim C6 -/

def c6Entry : ClientAuthRememberListEntry :=
  ClientAuthRememberListEntry.make (strB "example.com") none none (strB "https") 0

def c6Record : List Nat :=
  strB "example.com,,^partitionKey=%28https%2Cexample.com%29" ++ List.replicate 204 0 ++
    strB "no client certificate" ++ List.replicate 1003 0

theorem c6Entry_to_bytes : c6Entry.to_bytes = some c6Record := by
  have h2b : c6Entry.to_bytes = some (padTo ENTRY_LENGTH (padTo KEY_LENGTH
      (strB "example.com" ++ strB ",,^partitionKey=%28" ++ strB "https" ++ strB "%2C" ++
        tldOf (strB "example.com") ++ [] ++ strB "%29") ++ strB "no client certificate")) :=
    to_bytes_eq _ [] (strB "no client certificate")
      (show ∀ c ∈ strB "example.com", c < 128 from by decide)
      (show ∀ c ∈ strB "https", c < 128 from by decide)
      (show ∀ c ∈ tldOf (strB "example.com"), c < 128 from by decide)
      rfl rfl
  have hpk : padTo KEY_LENGTH (strB "example.com" ++ strB ",,^partitionKey=%28" ++
      strB "https" ++ strB "%2C" ++ tldOf (strB "example.com") ++ [] ++ strB "%29") =
      (strB "example.com" ++ strB ",,^partitionKey=%28" ++ strB "https" ++ strB "%2C" ++
        tldOf (strB "example.com") ++ [] ++ strB "%29") ++ List.replicate 204 0 := by
    have hn : KEY_LENGTH - (strB "example.com" ++ strB ",,^partitionKey=%28" ++ strB "https" ++
        strB "%2C" ++ tldOf (strB "example.com") ++ [] ++ strB "%29").length = 204 := by decide
    rw [padTo_eq_append, hn]
  have hfull : padTo ENTRY_LENGTH (((strB "example.com" ++ strB ",,^partitionKey=%28" ++
      strB "https" ++ strB "%2C" ++ tldOf (strB "example.com") ++ [] ++ strB "%29") ++
        List.replicate 204 0) ++ strB "no client certificate") =
      (((strB "example.com" ++ strB ",,^partitionKey=%28" ++ strB "https" ++ strB "%2C" ++
        tldOf (strB "example.com") ++ [] ++ strB "%29") ++ List.replicate 204 0) ++
          strB "no client certificate") ++ List.replicate 1003 0 := by
    have hn : ENTRY_LENGTH - ((strB "example.com" ++ strB ",,^partitionKey=%28" ++ strB "https" ++
        strB "%2C" ++ tldOf (strB "example.com") ++ [] ++ strB "%29" ++ List.replicate 204 0) ++
          strB "no client certificate").length = 1003 := by
      rw [List.length_append, List.length_append, List.length_replicate]
      have h52 : (strB "example.com" ++ strB ",,^partitionKey=%28" ++ strB "https" ++
        strB "%2C" ++ tldOf (strB "example.com") ++ [] ++ strB "%29").length = 52 := by decide
      rw [h52]
      decide
    rw [padTo_eq_append, hn]
  rw [h2b, hpk, hfull]
  rw [show (strB "example.com" ++ strB ",,^partitionKey=%28" ++ strB "https" ++ strB "%2C" ++
    tldOf (strB "example.com") ++ [] ++ strB "%29") =
      strB "example.com,,^partitionKey=%28https%2Cexample.com%29" from by decide]
  rw [c6Record]

/-- C6 (amended): the entry host=example.com, no certificate, no port,
scheme=https encodes to a key region beginning
`example.com,,^partitionKey=%28https%2Cexample.com%29` (the partition key
embeds the derived tld, the last two labels of the host — here the whole
host — not just `com`), zero-padded to 256 bytes, followed by the literal
marker `no client certificate` zero-padded to the certificate-region length;
decoding that record yields host example.com, scheme https, absent port,
tld example.com and an absent certificate. -/
theorem claim_C6_concrete_record :
    c6Entry.to_bytes = some c6Record ∧
    ClientAuthRememberListEntry.from_bytes c6Record 0 = some c6Entry ∧
    c6Entry.tld = strB "example.com" ∧ c6Entry.port = none ∧ c6Entry.cert = none := by
  refine ⟨c6Entry_to_bytes, ?_, by decide, rfl, rfl⟩
  obtain ⟨r, hr, hdec⟩ := entry_roundtrip (strB "example.com") (strB "https") none none 0
    (by decide) (by decide) (by decide) (by decide)
    (fun cc hcc => absurd hcc (by simp)) (by decide)
  simp only [Option.map_none'] at hr hdec
  have hrc : r = c6Record := by
    rw [show (ClientAuthRememberListEntry.make (strB "example.com") none none
      (strB "https") 0) = c6Entry from rfl, c6Entry_to_bytes] at hr
    exact (Option.some.injEq _ _).mp hr.symm
  rw [← hrc]
  exact hdec

/-- Counterexample to C6 as stated: the key region does not begin with
`example.com,,^partitionKey=%28https%2Ccom%29` — the partition key embeds
`example.com`, not the last label `com`. -/
theorem claim_C6_concrete_record_cx :
    (c6Entry.to_bytes).map (fun r => r.take 44) ≠
      some (strB "example.com,,^partitionKey=%28https%2Ccom%29") := by
  rw [c6Entry_to_bytes, Option.map_some']
  have ht : c6Record.take 44 =
      (strB "example.com,,^partitionKey=%28https%2Cexample.com%29").take 44 := by
    rw [c6Record]
    rw [List.append_assoc, List.append_assoc]
    rw [List.take_append_eq_append_take]
    rw [show (44 : Nat) -
      (strB "example.com,,^partitionKey=%28https%2Cexample.com%29").length = 0 from by decide]
    simp
  rw [ht]
  decide

/-! ## C7: certificate-descriptor decoding -/

/-- C7: whenever entry decoding succeeds on data whose zero-stripped
certificate region is not the literal absent-certificate marker, the region
was base64-decoded, and the resulting certificate carries the serial number
rebuilt as an unsigned big-endian integer from the serial slice whose length
is the 4-byte big-endian field in bytes 8..12 of the decoded buffer, and the
issuer bytes sliced after the serial with the length given by the 4-byte
big-endian field in bytes 12..16 (the two fields unpacked from bytes 8..16),
both slices starting at byte 16. -/
theorem claim_C7_cert_descriptor (data : List Nat) (days : Nat)
    (e : ClientAuthRememberListEntry)
    (hne : rstrip0 (data.drop KEY_LENGTH) ≠ strB "no client certificate")
    (hdec : ClientAuthRememberListEntry.from_bytes data days = some e) :
    ∃ dec, b64decode (rstrip0 (data.drop KEY_LENGTH)) = some dec ∧
      ((dec.drop 8).take 8).length = 8 ∧
      e.cert = some
        { serial_number := beNat ((dec.drop 16).take (beNat ((dec.drop 8).take 4))),
          issuer := (dec.drop (16 + beNat ((dec.drop 8).take 4))).take
            (beNat ((dec.drop 12).take 4)) } := by
  rw [ClientAuthRememberListEntry.from_bytes] at hdec
  split at hdec
  · exact absurd hdec (by simp)
  split at hdec
  · exact absurd hdec (by simp)
  split at hdec
  · exact absurd hdec (by simp)
  split at hdec
  · exact absurd hdec (by simp)
  rename_i cert hcert
  rw [certOf, if_neg hne] at hcert
  split at hcert
  · exact absurd hcert (by simp)
  rename_i dec hb64
  rw [certDescOf] at hcert
  split at hcert
  case _ a b c d a2 b2 c2 d2 hm =>
    simp only [Option.some.injEq] at hcert hdec
    subst hdec
    have h4 : (dec.drop 8).take 4 = [a, b, c, d] := by
      have hstep : (dec.drop 8).take 4 = ((dec.drop 8).take 8).take 4 := by
        rw [List.take_take]
        norm_num
      rw [hstep, hm]
      rfl
    have h4' : (dec.drop 12).take 4 = [a2, b2, c2, d2] := by
      have hstep : (dec.drop 12).take 4 = ((dec.drop 8).drop 4).take 4 := by
        rw [List.drop_drop]
      have hstep2 : ((dec.drop 8).drop 4).take 4 = ((dec.drop 8).take 8).drop 4 := by
        rw [List.drop_take]
      rw [hstep, hstep2, hm]
      rfl
    have hsl : beNat ((dec.drop 8).take 4) = ((a * 256 + b) * 256 + c) * 256 + d := by
      rw [h4]
      simp only [beNat, List.foldl_cons, List.foldl_nil]
      omega
    have hil : beNat ((dec.drop 12).take 4) = ((a2 * 256 + b2) * 256 + c2) * 256 + d2 := by
      rw [h4']
      simp only [beNat, List.foldl_cons, List.foldl_nil]
      omega
    refine ⟨dec, hb64, by rw [hm]; rfl, ?_⟩
    show cert = some _
    rw [hsl, hil]
    exact hcert.symm
  · exact absurd hcert (by simp)

/-- Concrete data for the C7 witness: a short key text followed by zero
padding up to the 256-byte key boundary and a base64 certificate descriptor
with a 1-byte serial `[5]` and a 1-byte issuer `[65]`. -/
def c7Data : List Nat :=
  padTo KEY_LENGTH (strB "h,,%28a%2Cb%29") ++
    b64encode [0, 0, 0, 0, 0, 0, 0, 0, 0, 0, 0, 1, 0, 0, 0, 1, 5, 65]

/-- The entry decoded from `c7Data`. -/
def c7Entry : ClientAuthRememberListEntry :=
  ClientAuthRememberListEntry.make [104] (some ⟨5, [65]⟩) none [97] 7

/-- Witness for C7 at `c7Data`. -/
theorem claim_C7_cert_descriptor_witness :
    rstrip0 (c7Data.drop KEY_LENGTH) ≠ strB "no client certificate" ∧
    ClientAuthRememberListEntry.from_bytes c7Data 7 = some c7Entry ∧
    ∃ dec, b64decode (rstrip0 (c7Data.drop KEY_LENGTH)) = some dec ∧
      ((dec.drop 8).take 8).length = 8 ∧
      c7Entry.cert = some
        { serial_number := beNat ((dec.drop 16).take (beNat ((dec.drop 8).take 4))),
          issuer := (dec.drop (16 + beNat ((dec.drop 8).take 4))).take
            (beNat ((dec.drop 12).take 4)) } :=
  ⟨by decide, by decide, claim_C7_cert_descriptor c7Data 7 c7Entry (by decide) (by decide)⟩

/-! ## C8: absence of region-overflow validation -/

/-- Python `str.split(sep)` on input not containing the separator returns the
whole input as the only part. -/
theorem splitByte_no_sep (b : Nat) (l : List Nat) (h : b ∉ l) : splitByte b l = [l] := by
  induction l with
  | nil => rfl
  | cons c t ih =>
    have hcb : ¬ c = b := fun hcb => h (by rw [hcb]; exact List.mem_cons_self _ _)
    have hbt : b ∉ t := fun hbt => h (List.mem_cons_of_mem _ hbt)
    rw [splitByte, if_neg hcb, ih hbt]

/-- An entry whose 300-character host makes the partition-key text overflow
the 256-byte key region. -/
def c8aEntry : ClientAuthRememberListEntry :=
  ClientAuthRememberListEntry.make (List.replicate 300 97) none none (strB "https") 0

/-- The oversized partition-key text of `c8aEntry`. -/
def c8aKt : List Nat :=
  List.replicate 300 97 ++ strB ",,^partitionKey=%28" ++ strB "https" ++ strB "%2C" ++
    List.replicate 300 97 ++ [] ++ strB "%29"

theorem tldOf_c8aHost : tldOf (List.replicate 300 97) = List.replicate 300 97 := by
  rw [tldOf, splitByte_no_sep 46 _ (by simp [List.mem_replicate])]
  rfl

theorem c8aKt_length : c8aKt.length = 630 := by
  rw [c8aKt]
  simp only [List.length_append, List.length_replicate, List.length_nil]
  decide

theorem c8a_keyText : keyTextOf c8aEntry = c8aKt := by
  show List.replicate 300 97 ++ strB ",,^partitionKey=%28" ++ strB "https" ++ strB "%2C" ++
    tldOf (List.replicate 300 97) ++ [] ++ strB "%29" = c8aKt
  rw [tldOf_c8aHost, c8aKt]

theorem c8a_to_bytes :
    c8aEntry.to_bytes = some (c8aKt ++ strB "no client certificate" ++
      List.replicate 629 0) := by
  have h2b := to_bytes_eq c8aEntry [] (strB "no client certificate")
    (by
      intro c hc
      rw [List.eq_of_mem_replicate (show c ∈ List.replicate 300 97 from hc)]
      decide)
    (by decide)
    (by
      show ∀ c ∈ tldOf (List.replicate 300 97), c < 128
      rw [tldOf_c8aHost]
      intro c hc
      rw [List.eq_of_mem_replicate hc]
      decide)
    rfl rfl
  have hinner : c8aEntry.host ++ strB ",,^partitionKey=%28" ++ c8aEntry.scheme ++
      strB "%2C" ++ c8aEntry.tld ++ [] ++ strB "%29" = c8aKt := by
    show List.replicate 300 97 ++ strB ",,^partitionKey=%28" ++ strB "https" ++ strB "%2C" ++
      tldOf (List.replicate 300 97) ++ [] ++ strB "%29" = c8aKt
    rw [tldOf_c8aHost, c8aKt]
  rw [hinner] at h2b
  have hpk : padTo KEY_LENGTH c8aKt = c8aKt :=
    padTo_of_le _ _ (by rw [c8aKt_length]; decide)
  rw [hpk] at h2b
  have hn : ENTRY_LENGTH - (c8aKt ++ strB "no client certificate").length = 629 := by
    rw [List.length_append, c8aKt_length]
    decide
  rw [padTo_eq_append, hn] at h2b
  exact h2b

/-- A certificate whose 1000-byte issuer makes the base64 descriptor overflow
the certificate region. -/
def c8bCert : ClientCert := ⟨1, List.replicate 1000 65⟩

/-- The entry carrying `c8bCert`. -/
def c8bEntry : ClientAuthRememberListEntry :=
  ClientAuthRememberListEntry.make (strB "example.com") (some c8bCert) none (strB "https") 0

/-- The oversized base64 certificate region of `c8bEntry`. -/
def c8bCr : List Nat :=
  b64encode ([0, 0, 0, 0, 0, 0, 0, 0] ++ be32 1 ++ be32 1000 ++ [1] ++
    List.replicate 1000 65)

theorem c8bCr_length : c8bCr.length = 1356 := by
  rw [c8bCr]
  have hlen : ([0, 0, 0, 0, 0, 0, 0, 0] ++ be32 1 ++ be32 1000 ++ [1] ++
      List.replicate 1000 65).length = 1017 := by
    simp only [List.length_append, List.length_replicate, be32, beBytes_length]
    decide
  rw [b64encode_length_mod3 _ (by rw [hlen]), hlen]

theorem c8b_certRegion : certRegionOf (some c8bCert) = some c8bCr := by
  have h := certRegionOf_some c8bCert (by decide) (by decide)
  rw [h]
  have hsb : (beBytes 20 c8bCert.serial_number).dropWhile (fun b => b = 0) = [1] := by
    decide
  rw [hsb]
  have hiss : c8bCert.issuer = List.replicate 1000 65 := rfl
  rw [hiss, List.length_replicate]
  simp only [List.length_singleton]
  rw [c8bCr]

theorem c8b_to_bytes :
    c8bEntry.to_bytes =
      some ((strB "example.com,,^partitionKey=%28https%2Cexample.com%29" ++
        List.replicate 204 0) ++ c8bCr) := by
  have h2b := to_bytes_eq c8bEntry [] c8bCr
    (show ∀ c ∈ strB "example.com", c < 128 from by decide)
    (show ∀ c ∈ strB "https", c < 128 from by decide)
    (show ∀ c ∈ tldOf (strB "example.com"), c < 128 from by decide)
    rfl c8b_certRegion
  have hinner : c8bEntry.host ++ strB ",,^partitionKey=%28" ++ c8bEntry.scheme ++
      strB "%2C" ++ c8bEntry.tld ++ [] ++ strB "%29" =
      strB "example.com,,^partitionKey=%28https%2Cexample.com%29" := by
    show strB "example.com" ++ strB ",,^partitionKey=%28" ++ strB "https" ++ strB "%2C" ++
      tldOf (strB "example.com") ++ [] ++ strB "%29" = _
    decide
  rw [hinner] at h2b
  have hn1 : KEY_LENGTH -
      (strB "example.com,,^partitionKey=%28https%2Cexample.com%29").length = 204 := by
    decide
  have hpk : padTo KEY_LENGTH (strB "example.com,,^partitionKey=%28https%2Cexample.com%29") =
      strB "example.com,,^partitionKey=%28https%2Cexample.com%29" ++
        List.replicate 204 0 := by
    rw [padTo_eq_append, hn1]
  rw [hpk] at h2b
  have hfull : padTo ENTRY_LENGTH
      ((strB "example.com,,^partitionKey=%28https%2Cexample.com%29" ++
        List.replicate 204 0) ++ c8bCr) =
      (strB "example.com,,^partitionKey=%28https%2Cexample.com%29" ++
        List.replicate 204 0) ++ c8bCr :=
    padTo_of_le _ _ (by
      simp only [List.length_append, List.length_replicate, c8bCr_length]
      decide)
  rw [hfull] at h2b
  exact h2b

/-- C8 (actual behavior, contradicting the claimed `InvalidEncodingInput`
validation): `to_bytes` has no region-overflow check. An entry whose
partition-key text is 630 bytes long is encoded without error into a
1280-byte record whose first 630 bytes are the key text, silently
overflowing the 256-byte key region into the certificate region; and an
entry whose base64 certificate descriptor is 1356 bytes long is encoded
without error into an oversized 1612-byte record whose 1618-byte slot the
list decoder itself then rejects as a fatal length mismatch. -/
theorem claim_C8_overflow_unchecked :
    (∃ r, c8aEntry.to_bytes = some r ∧
      KEY_LENGTH < (keyTextOf c8aEntry).length ∧
      r.length = ENTRY_LENGTH ∧
      r.take (keyTextOf c8aEntry).length = keyTextOf c8aEntry) ∧
    (∃ s, slot_bytes c8bEntry = some s ∧ s.length = 1618 ∧
      ClientAuthRememberList.from_file s = .error (.lengthMismatch 1618)) := by
  constructor
  · refine ⟨c8aKt ++ strB "no client certificate" ++ List.replicate 629 0,
      c8a_to_bytes, ?_, ?_, ?_⟩
    · rw [c8a_keyText, c8aKt_length]
      decide
    · simp only [List.length_append, List.length_replicate, c8aKt_length]
      decide
    · rw [c8a_keyText, c8aKt_length, List.append_assoc]
      exact List.take_left' c8aKt_length
  · have hrlen : ((strB "example.com,,^partitionKey=%28https%2Cexample.com%29" ++
        List.replicate 204 0) ++ c8bCr).length = 1612 := by
      simp only [List.length_append, List.length_replicate, c8bCr_length]
      decide
    obtain ⟨ck, hck⟩ := Option.isSome_iff_exists.mp
      (foldWords_isSome_of_even (1 ^^^ c8bEntry.last_modified_days) _
        (by rw [hrlen]))
    have hs := slot_bytes_of c8bEntry _ ck c8b_to_bytes hck (by decide)
    refine ⟨_, hs, ?_, ?_⟩
    · simp only [List.length_append, be16_length, List.length_replicate, c8bCr_length]
      decide
    · have hslen : (be16 ck ++ be16 1 ++ be16 c8bEntry.last_modified_days ++
          ((strB "example.com,,^partitionKey=%28https%2Cexample.com%29" ++
            List.replicate 204 0) ++ c8bCr)).length = 1618 := by
        simp only [List.length_append, be16_length, List.length_replicate, c8bCr_length]
        decide
      rw [ClientAuthRememberList.from_file, hslen]
      rw [if_neg (by decide : ¬(1618 : Nat) = 0),
        if_pos (by decide : (1618 : Nat) % (ENTRY_LENGTH + 6) ≠ 0)]

end CarlFF
